import Mathlib

/-!
Verification of the domubus event bus core against its source.

Shallow embedding of `src/domubus`:
* `JSONL` — the durable log (`persistence.py`): records are modelled as flat
  string-to-string dictionaries, the file as a list of characters, and
  `json.dumps` / `json.loads` as an executable serializer and strict parser
  for the fragment of JSON the serializer emits on such records (one object
  per line, no escape sequences needed when the strings contain no quote,
  backslash or newline characters).
* `FileWatcher` — the poll-cycle line processing of `watcher.py`.
* `HandlerRegistry` / `EventBus` — the handler registry (`handlers.py`) and
  the dispatch engine (`bus.py`): callbacks are functions returning
  `Except Unit Unit` (normal return or raised exception), filters return
  `Except Unit Bool`, and both emit paths are modelled as pure state
  transformers that also report the invocation trace, the error-callback
  calls and the exception, if any, that escaped to the caller.
-/

namespace Domubus

/-! ## Characters, lines and slices -/

/-- Whitespace characters recognized by the model of Python `str.strip`. -/
def isWsChar (c : Char) : Bool :=
  c = ' ' || c = '\t' || c = '\n' || c = '\r'

/-- Model of Python `str.strip`: drop leading and trailing whitespace. -/
def stripChars (l : List Char) : List Char :=
  ((l.dropWhile isWsChar).reverse.dropWhile isWsChar).reverse

/-- Split a character list on newline characters.  Mirrors how Python file
iteration plus `str.splitlines` cut a file into lines; the result is always
nonempty and a trailing newline produces a final empty chunk, which the
callers discard as a blank line. -/
def splitLines : List Char → List (List Char)
  | [] => [[]]
  | c :: cs =>
    let r := splitLines cs
    if c = '\n' then [] :: r
    else (c :: r.headD []) :: r.tail

/-- Model of the Python slice `l[-n:]`: the last `n` elements, except that
`n = 0` yields the whole list (`l[-0:]` is `l[0:]`). -/
def sliceLast (n : Nat) (l : List α) : List α :=
  if n = 0 then l else l.drop (l.length - n)

/-- The last `n` elements of a list. -/
def takeLast (n : Nat) (l : List α) : List α :=
  l.drop (l.length - n)

/-- File contents with the given lines separated by newlines and no
trailing newline (readers must tolerate its absence on the last line). -/
def joinNL : List (List Char) → List Char
  | [] => []
  | [l] => l
  | l :: ls => l ++ '\n' :: joinNL ls

/-! ## The durable log (`persistence.py`) -/

/-- A persisted event record: the model restricts event dictionaries to flat
string-to-string maps, with keys and values as character lists. -/
abbrev Rec := List (List Char × List Char)

/-- True of characters that `json.dumps` emits verbatim inside a string
literal: anything except the quote, the backslash, and the newline. -/
def okChar (c : Char) : Bool :=
  c ≠ '"' && c ≠ '\\' && c ≠ '\n'

/-- A string whose characters all serialize verbatim. -/
def okStr (s : List Char) : Prop := ∀ c ∈ s, okChar c = true

/-- A record is well-formed when all of its keys and values serialize
verbatim, so that `json.dumps` needs no escape sequences for it. -/
def WellFormedRec (r : Rec) : Prop := ∀ kv ∈ r, okStr kv.1 ∧ okStr kv.2

instance (s : List Char) : Decidable (okStr s) := by
  unfold okStr
  infer_instance

instance (r : Rec) : Decidable (WellFormedRec r) := by
  unfold WellFormedRec
  infer_instance

/-- Serialize one string to a JSON string literal (no escapes needed on
well-formed input). -/
def dumpStr (s : List Char) : List Char :=
  '"' :: s ++ ['"']

/-- Serialize the key/value pairs of a record with the separators
`(",", ":")` that `persistence.py` passes to `json.dumps`. -/
def dumpPairs : Rec → List Char
  | [] => []
  | [(k, v)] => dumpStr k ++ ':' :: dumpStr v
  | (k, v) :: rest => dumpStr k ++ ':' :: dumpStr v ++ ',' :: dumpPairs rest

/-- Model of `json.dumps(event, separators=(",", ":"))` on a flat
string-to-string record. -/
def json_dumps (r : Rec) : List Char :=
  '{' :: dumpPairs r ++ ['}']

/-- Parse a JSON string body after the opening quote, up to the closing
quote.  Strictly accepts the output of `dumpStr` on well-formed strings and
rejects anything else (escapes included), so a successful parse yields a
well-formed string. -/
def parseStr : List Char → Option (List Char × List Char)
  | [] => none
  | c :: cs =>
    if c = '"' then some ([], cs)
    else if okChar c then (parseStr cs).map (fun p => (c :: p.1, p.2)) else none

/-- Parse one `"key":"value"` pair. -/
def parsePair (cs : List Char) : Option ((List Char × List Char) × List Char) :=
  match cs with
  | '"' :: cs1 =>
    match parseStr cs1 with
    | some (k, ':' :: '"' :: cs2) =>
      (parseStr cs2).map (fun p => ((k, p.1), p.2))
    | _ => none
  | _ => none

/-- Parse a nonempty comma-separated pair list; `fuel` bounds the number of
pairs and only needs to be at least their count. -/
def parsePairs : Nat → List Char → Option (Rec × List Char)
  | 0, _ => none
  | fuel + 1, cs =>
    match parsePair cs with
    | none => none
    | some (kv, rest) =>
      match rest with
      | [] => some ([kv], [])
      | c :: rest2 =>
        if c = ',' then (parsePairs fuel rest2).map (fun p => (kv :: p.1, p.2))
        else some ([kv], c :: rest2)

/-- Model of `json.loads` on one line, restricted to the strict fragment
that `json_dumps` emits: a parse failure models `json.JSONDecodeError`. -/
def json_loads (cs : List Char) : Option Rec :=
  match cs with
  | [] => none
  | c :: cs1 =>
    if c = '{' then
      if cs1 = ['}'] then some []
      else
        match parsePairs (cs1.length + 1) cs1 with
        | some (r, rest) => if rest = ['}'] then some r else none
        | none => none
    else none

namespace JSONLPersistence

/-- Translation of the per-line body of `JSONLPersistence.load`: strip the
line, skip it when blank, try to parse it and skip it when corrupt. -/
def parseEntry (l : List Char) : Option Rec :=
  let s := stripChars l
  if s = [] then none else json_loads s

/-- Translation of `JSONLPersistence._load_all`: every line that strips
nonblank and parses, in file order, with no cap applied. -/
def load_all (file : List Char) : List Rec :=
  (splitLines file).filterMap parseEntry

/-- Translation of `JSONLPersistence.load`: like `load_all` but returning
only `events[-max_events:]`. -/
def load (max_events : Nat) (file : List Char) : List Rec :=
  sliceLast max_events (load_all file)

/-- Translation of `JSONLPersistence.append`: serialize the record to one
line and write it, newline-terminated, at the end of the file. -/
def append (file : List Char) (r : Rec) : List Char :=
  file ++ json_dumps r ++ ['\n']

/-- File contents produced by writing each given line followed by a
newline, as the append and compaction loops do. -/
def withNL (lines : List (List Char)) : List Char :=
  (lines.map (fun l => l ++ ['\n'])).flatten

/-- Translation of `JSONLPersistence.compact`: load everything; if the
record count is within `max_events` leave the file alone and report 0;
otherwise rewrite the file with `events[-max_events:]` and report how many
records were dropped. -/
def compact (max_events : Nat) (file : List Char) : List Char × Nat :=
  let events := load_all file
  if events.length ≤ max_events then (file, 0)
  else (withNL ((sliceLast max_events events).map json_dumps),
        events.length - max_events)

end JSONLPersistence

/-! ## The cross-process watcher (`watcher.py`) -/

/-- Key under which `EventBus` stamps the emitting process, as a character
list. -/
def sourceKey : List Char := ("_source_process" : String).data

/-- Dictionary lookup on a record, modelling `dict.get`. -/
def recGet (r : Rec) (k : List Char) : Option (List Char) :=
  match r.find? (fun kv => kv.1 == k) with
  | some kv => some kv.2
  | none => none

namespace FileWatcher

/-- Translation of the line-processing loop of `FileWatcher._check_file` on
the newly grown region `content`: split into lines, strip each, skip blank
lines, skip lines that fail to parse, skip records whose
`_source_process` equals this watcher's process identity, and hand every
remaining record to the delivery callback, in order.  The returned list is
the sequence of delivery-callback arguments. -/
def checkNewContent (process_id : List Char) (content : List Char) : List Rec :=
  (splitLines content).filterMap (fun l =>
    let s := stripChars l
    if s = [] then none
    else
      match json_loads s with
      | none => none
      | some event =>
        if recGet event sourceKey = some process_id then none else some event)

end FileWatcher

/-! ## Log-line classification used to state the load/watcher claims -/

/-- A line of the durable log as the specification classifies it: a valid
serialized record, a corrupt (unparsable, nonblank) line, or a blank
line. -/
inductive LogLine
  | valid (r : Rec)
  | corrupt (c : List Char)
  | blank (b : List Char)

/-- The raw characters of a classified line. -/
def LogLine.render : LogLine → List Char
  | .valid r => json_dumps r
  | .corrupt c => c
  | .blank b => b

/-- The records of the valid lines, in order. -/
def validRecs : List LogLine → List Rec
  | [] => []
  | .valid r :: ls => r :: validRecs ls
  | _ :: ls => validRecs ls

/-! ## Events and handlers (`events.py`, `handlers.py`)

Callbacks and filters are kept as Lean functions on events.  A callback
either returns normally (`Except.ok ()`) or raises (`Except.error ()`); a
filter either returns a boolean or raises.  The payload of an event is
abstracted to a number — the dispatch engine never inspects it, only the
user-supplied filters and callbacks do. -/

/-- An emitted event: its name and an abstract payload. -/
structure Event where
  event_type : String
  data : Nat
deriving DecidableEq, Repr

/-- Translation of the `HandlerEntry` dataclass.  The Python `id` is a
UUID; it is modelled as a number, with the uniqueness that UUIDs provide
stated as a hypothesis where a theorem needs it.  `is_async` stands for
`asyncio.iscoroutinefunction(callback)`. -/
structure HandlerEntry where
  id : Nat
  event_type : String
  callback : Event → Except Unit Unit
  priority : Int
  once : Bool
  filter_fn : Option (Event → Except Unit Bool)
  is_async : Bool

/-- Stable insertion of an entry into a list sorted by priority descending:
the entry goes after every strictly higher-priority element and before the
first element of equal or lower priority. -/
def insertEntry (e : HandlerEntry) : List HandlerEntry → List HandlerEntry
  | [] => [e]
  | x :: xs =>
    if e.priority < x.priority then x :: insertEntry e xs
    else e :: x :: xs

/-- Stable sort by priority descending.  Python's `list.sort` and `sorted`
with `key=lambda h: -h.priority` are stable sorts on this key, and every
stable sort on a fixed key computes the same list, so insertion sort is an
extensionally faithful model of them. -/
def sortByPrio : List HandlerEntry → List HandlerEntry
  | [] => []
  | x :: xs => insertEntry x (sortByPrio xs)

/-- Translation of `HandlerRegistry` state: `_handlers` is a dict from
event type to handler list, modelled as an association list in key
insertion order (Python dicts iterate in insertion order), plus the
separate wildcard list. -/
structure HandlerRegistry where
  handlers : List (String × List HandlerEntry)
  wildcard_handlers : List HandlerEntry

namespace HandlerRegistry

/-- The empty registry built by `HandlerRegistry.__init__`. -/
def init : HandlerRegistry := ⟨[], []⟩

/-- Append an entry to the bucket of its event type, creating the bucket at
the end of the dict when absent, and re-sort that bucket by priority
descending — the body of `subscribe` for a non-wildcard event type. -/
def addToBucket (ev : String) (e : HandlerEntry) :
    List (String × List HandlerEntry) → List (String × List HandlerEntry)
  | [] => [(ev, [e])]
  | (k, l) :: rest =>
    if k = ev then (k, sortByPrio (l ++ [e])) :: rest
    else (k, l) :: addToBucket ev e rest

/-- Translation of `HandlerRegistry.subscribe`, taking the already-built
entry (the caller supplies the fresh id that `uuid4()` generates). -/
def subscribe (r : HandlerRegistry) (e : HandlerEntry) : HandlerRegistry :=
  if e.event_type = "*" then
    { r with wildcard_handlers := sortByPrio (r.wildcard_handlers ++ [e]) }
  else
    { r with handlers := addToBucket e.event_type e r.handlers }

/-- Remove the first entry with the given id from a list, reporting whether
one was found. -/
def removeFirst (i : Nat) : List HandlerEntry → Option (List HandlerEntry)
  | [] => none
  | h :: hs =>
    if h.id = i then some hs
    else (removeFirst i hs).map (fun l => h :: l)

/-- Scan the buckets in dict order and remove the first entry with the
given id from the first bucket that has one. -/
def removeFromBuckets (i : Nat) :
    List (String × List HandlerEntry) → Option (List (String × List HandlerEntry))
  | [] => none
  | (k, l) :: rest =>
    match removeFirst i l with
    | some l' => some ((k, l') :: rest)
    | none => (removeFromBuckets i rest).map (fun bs => (k, l) :: bs)

/-- Translation of `HandlerRegistry.unsubscribe`: check the specific
buckets first, then the wildcard list; remove the first match and report
whether one was found. -/
def unsubscribe (r : HandlerRegistry) (i : Nat) : HandlerRegistry × Bool :=
  match removeFromBuckets i r.handlers with
  | some bs => ({ r with handlers := bs }, true)
  | none =>
    match removeFirst i r.wildcard_handlers with
    | some w => ({ r with wildcard_handlers := w }, true)
    | none => (r, false)

/-- Translation of `dict.get(event_type, [])` on `_handlers`. -/
def bucketOf (ev : String) (bs : List (String × List HandlerEntry)) : List HandlerEntry :=
  match bs.find? (fun b => b.1 == ev) with
  | some b => b.2
  | none => []

/-- Translation of `HandlerRegistry.get_handlers`: the specific list
concatenated with the wildcard list, re-sorted by priority descending with
Python's stable sort. -/
def get_handlers (r : HandlerRegistry) (event_type : String) : List HandlerEntry :=
  sortByPrio (bucketOf event_type r.handlers ++ r.wildcard_handlers)

/-- Every entry stored in the registry, specific buckets first (in dict
order) then wildcards.  `handler_count(None)` is the length of this
list. -/
def allEntries (r : HandlerRegistry) : List HandlerEntry :=
  (r.handlers.map Prod.snd).flatten ++ r.wildcard_handlers

/-- Translation of `HandlerRegistry.handler_count`. -/
def handler_count (r : HandlerRegistry) (event_type : Option String) : Nat :=
  match event_type with
  | none => ((r.handlers.map (fun b => b.2.length)).sum) + r.wildcard_handlers.length
  | some t =>
    if t = "*" then r.wildcard_handlers.length
    else (bucketOf t r.handlers).length

end HandlerRegistry

/-- The number of stored entries carrying a given id. -/
def idCount (i : Nat) (l : List HandlerEntry) : Nat :=
  l.countP (fun e => e.id == i)

/-- The stored entries carrying a given id. -/
def filterId (i : Nat) (l : List HandlerEntry) : List HandlerEntry :=
  l.filter (fun e => e.id == i)

/-- The arguments of `HandlerRegistry.subscribe` apart from the generated
id. -/
structure SubReq where
  event_type : String
  callback : Event → Except Unit Unit
  priority : Int
  once : Bool
  filter_fn : Option (Event → Except Unit Bool)
  is_async : Bool

/-- Build the entry that `subscribe` constructs, with `n` standing for the
fresh `uuid4()` id. -/
def mkEntry (n : Nat) (q : SubReq) : HandlerEntry :=
  ⟨n, q.event_type, q.callback, q.priority, q.once, q.filter_fn, q.is_async⟩

/-- A registry operation: a subscription request or an unsubscription by
id. -/
inductive RegOp
  | sub (q : SubReq)
  | unsub (i : Nat)

/-- Run registry operations, assigning ids `n, n+1, …` to successive
subscriptions (modelling the freshness of `uuid4()`). -/
def applyOps (n : Nat) (r : HandlerRegistry) : List RegOp → HandlerRegistry
  | [] => r
  | .sub q :: ops => applyOps (n + 1) (r.subscribe (mkEntry n q)) ops
  | .unsub i :: ops => applyOps n (r.unsubscribe i).1 ops

/-- The registry reached from empty by a sequence of operations; the id of
an entry is its subscription rank, so smaller id means registered
earlier. -/
def registryOf (ops : List RegOp) : HandlerRegistry :=
  applyOps 0 .init ops

/-! ## The dispatch engine (`bus.py`) -/

/-- One entry of the in-memory history deque: `event.to_dict()` plus the
`_source_process` stamp added by the emit paths. -/
structure EventDict where
  event_type : String
  data : Nat
  source_process : String
deriving DecidableEq, Repr

/-- Build the history entry an emit appends: `event.to_dict()` with
`_source_process` set to the bus's process id. -/
def eventDict (e : Event) (pid : String) : EventDict :=
  ⟨e.event_type, e.data, pid⟩

/-- Append to a `deque(maxlen=limit)`: the oldest entries are evicted from
the left so that at most `limit` remain. -/
def dequeAppend (limit : Nat) (h : List EventDict) (d : EventDict) : List EventDict :=
  (h ++ [d]).drop (h.length + 1 - limit)

/-- Translation of the `EventBus` state the claims depend on: the registry,
the bounded history, its bound, whether an error callback is configured,
and the process identity.  Persistence wiring is orthogonal to the claims
about dispatch and history and is not carried here. -/
structure EventBus where
  registry : HandlerRegistry
  history : List EventDict
  history_limit : Nat
  err_cb : Bool
  process_id : String

/-- A fresh bus, as built by `EventBus.__init__`. -/
def EventBus.init (limit : Nat) (err_cb : Bool) (pid : String) : EventBus :=
  ⟨.init, [], limit, err_cb, pid⟩

/-- Data accumulated by the handler loop of an emit: the ids of the
handlers whose callback was invoked, the ids of the handlers whose callback
raised (each such exception is caught on the spot), and the ids marked for
deferred once-removal. -/
structure DispatchAcc where
  invoked : List Nat
  caught : List Nat
  toRemove : List Nat

/-- Translation of the handler loop shared by `emit_async` and `emit_sync`
(in `emit_async` both sync and async callbacks are invoked, awaiting the
async ones, so the loop body is the same).  Walks the resolved list in
order; evaluates the filter if present, skipping the handler when it
returns false; invokes the callback inside `try`, recording a raised
exception instead of propagating it; marks invoked `once` handlers for
deferred removal.  A filter that raises is outside the `try`: the loop
stops there and the second component carries the id of the handler whose
filter raised. -/
def runHandlers (ev : Event) : List HandlerEntry → DispatchAcc → DispatchAcc × Option Nat
  | [], acc => (acc, none)
  | h :: hs, acc =>
    match h.filter_fn with
    | some f =>
      match f ev with
      | .error _ => (acc, some h.id)
      | .ok false => runHandlers ev hs acc
      | .ok true =>
        runHandlers ev hs
          { invoked := acc.invoked ++ [h.id]
            caught := acc.caught ++ (match h.callback ev with
              | .error _ => [h.id]
              | .ok _ => [])
            toRemove := acc.toRemove ++ (if h.once then [h.id] else []) }
    | none =>
      runHandlers ev hs
        { invoked := acc.invoked ++ [h.id]
          caught := acc.caught ++ (match h.callback ev with
            | .error _ => [h.id]
            | .ok _ => [])
          toRemove := acc.toRemove ++ (if h.once then [h.id] else []) }

/-- Apply the deferred removals: `unsubscribe` each marked id in order. -/
def removeAll (r : HandlerRegistry) : List Nat → HandlerRegistry
  | [] => r
  | i :: is => removeAll (r.unsubscribe i).1 is

/-- The observable outcome of one emit: the bus afterwards, the event that
was dispatched, the resolved handler list the loop walked, the invocation
order, the error-callback invocations (handler ids, in order), and the
exception that escaped to the emitter (`some i` when the filter of handler
`i` raised), if any. -/
structure EmitResult where
  bus : EventBus
  event : Event
  resolved : List HandlerEntry
  invoked : List Nat
  forwarded : List Nat
  raised : Option Nat

/-- Translation of `EventBus.emit_async` on an already-normalized event:
stamp `_source_process` and append to the bounded history (persistence, when
configured, receives the same dict and is orthogonal here), resolve the
handlers, run the loop, then — only if no filter raised — apply the deferred
once-removals.  Exceptions caught from callbacks are forwarded to the error
callback exactly when one is configured, with `(exception, event,
handler.callback)`; the `forwarded` field lists those calls by handler
id. -/
def EventBus.emit_async (bus : EventBus) (ev : Event) : EmitResult :=
  let bus1 : EventBus :=
    { bus with history := dequeAppend bus.history_limit bus.history (eventDict ev bus.process_id) }
  let hs := bus1.registry.get_handlers ev.event_type
  match runHandlers ev hs ⟨[], [], []⟩ with
  | (acc, some i) =>
    ⟨bus1, ev, hs, acc.invoked, if bus.err_cb then acc.caught else [], some i⟩
  | (acc, none) =>
    ⟨{ bus1 with registry := removeAll bus1.registry acc.toRemove }, ev, hs,
      acc.invoked, if bus.err_cb then acc.caught else [], none⟩

/-- Translation of `EventBus.emit_sync`: identical to `emit_async` except
that async handlers are skipped with `continue` before the filter check —
equivalently, the loop walks the resolved list with the async entries
filtered out. -/
def EventBus.emit_sync (bus : EventBus) (ev : Event) : EmitResult :=
  let bus1 : EventBus :=
    { bus with history := dequeAppend bus.history_limit bus.history (eventDict ev bus.process_id) }
  let hs := (bus1.registry.get_handlers ev.event_type).filter (fun h => !h.is_async)
  match runHandlers ev hs ⟨[], [], []⟩ with
  | (acc, some i) =>
    ⟨bus1, ev, hs, acc.invoked, if bus.err_cb then acc.caught else [], some i⟩
  | (acc, none) =>
    ⟨{ bus1 with registry := removeAll bus1.registry acc.toRemove }, ev, hs,
      acc.invoked, if bus.err_cb then acc.caught else [], none⟩

/-- Emit a sequence of events through `emit_async`, collecting each emit's
result (each result carries the bus state after that emit). -/
def runEmitsTrace (bus : EventBus) : List Event → List EmitResult
  | [] => []
  | e :: es =>
    let r := bus.emit_async e
    r :: runEmitsTrace r.bus es

/-- The bus after emitting a sequence of events through `emit_async`. -/
def runEmits (bus : EventBus) : List Event → EventBus
  | [] => bus
  | e :: es => runEmits (bus.emit_async e).bus es

/-- Translation of `EventBus.get_history`: snapshot the deque, filter by
event type when one is given (Python truthiness: `None` and `""` both skip
the filter), then keep the last `limit` entries when a limit is given
(`None` and `0` both skip the truncation). -/
def EventBus.get_history (bus : EventBus) (event_type : Option String)
    (limit : Option Nat) : List EventDict :=
  let events := bus.history
  let events :=
    match event_type with
    | some t => if t = "" then events else events.filter (fun e => e.event_type == t)
    | none => events
  match limit with
  | some n => if n = 0 then events else takeLast n events
  | none => events

/-- True when the handler's filter, if any, does not raise on this event —
the condition under which the loop gets past the filter check of this
handler without an exception escaping. -/
def filterOk (ev : Event) (h : HandlerEntry) : Prop :=
  ∀ f, h.filter_fn = some f → f ev ≠ Except.error ()

/-- Whether the handler is actually invoked for this event, given that its
filter does not raise: true when the filter is absent or returns true. -/
def passes (ev : Event) (h : HandlerEntry) : Bool :=
  match h.filter_fn with
  | none => true
  | some f =>
    match f ev with
    | .ok b => b
    | .error _ => false

/-- The invocation order the loop produces on a list of handlers none of
whose filters raise: the ids of the handlers that pass their filter. -/
def invokedIds (ev : Event) (hs : List HandlerEntry) : List Nat :=
  (hs.filter (passes ev)).map (fun h => h.id)

/-- The ids whose callback raises among the invoked handlers, in order:
the error-callback forwarding order. -/
def caughtIds (ev : Event) (hs : List HandlerEntry) : List Nat :=
  ((hs.filter (passes ev)).filter (fun h =>
    match h.callback ev with
    | .error _ => true
    | .ok _ => false)).map (fun h => h.id)

/-- The ids marked for deferred once-removal, in order. -/
def removalIds (ev : Event) (hs : List HandlerEntry) : List Nat :=
  ((hs.filter (passes ev)).filter (fun h => h.once)).map (fun h => h.id)

/-- Well-formedness of a registry as `subscribe`/`unsubscribe` maintain it:
bucket keys are distinct, every entry sits in the bucket of its own event
type, and wildcard entries carry the wildcard type. -/
def WFreg (r : HandlerRegistry) : Prop :=
  (r.handlers.map Prod.fst).Nodup ∧
  (∀ b ∈ r.handlers, ∀ e ∈ b.2, e.event_type = b.1) ∧
  (∀ e ∈ r.wildcard_handlers, e.event_type = "*")

/-- The order every stored handler list keeps: priority strictly
descending, with ties in registration order, which is id order because ids
are assigned in subscription order. -/
def entryOrd (a b : HandlerEntry) : Prop :=
  b.priority < a.priority ∨ (a.priority = b.priority ∧ a.id < b.id)

/-- Invariant of a registry built with ids below `n`: every bucket and the
wildcard list are `entryOrd`-sorted, entries sit under their own event
type, bucket keys are never the wildcard, and all ids are below `n`. -/
def RegInv (n : Nat) (r : HandlerRegistry) : Prop :=
  (∀ b ∈ r.handlers,
    List.Pairwise entryOrd b.2 ∧ b.1 ≠ "*" ∧ ∀ e ∈ b.2, e.event_type = b.1 ∧ e.id < n) ∧
  List.Pairwise entryOrd r.wildcard_handlers ∧
  (∀ e ∈ r.wildcard_handlers, e.event_type = "*" ∧ e.id < n)

/-! ## Lemmas on lines, stripping and slicing -/

theorem splitLines_no_newline {a : List Char} (ha : '\n' ∉ a) : splitLines a = [a] := by
  induction a with
  | nil => rfl
  | cons c cs ih =>
    have hc : ¬(c = '\n') := fun h => ha (h ▸ List.mem_cons_self c cs)
    have ih' := ih (fun h => ha (List.mem_cons_of_mem _ h))
    simp [splitLines, ih', if_neg hc]

theorem splitLines_append_newline {a : List Char} (b : List Char) (ha : '\n' ∉ a) :
    splitLines (a ++ '\n' :: b) = a :: splitLines b := by
  induction a with
  | nil => simp [splitLines]
  | cons c cs ih =>
    have hc : ¬(c = '\n') := fun h => ha (h ▸ List.mem_cons_self c cs)
    have ih' := ih (fun h => ha (List.mem_cons_of_mem _ h))
    simp [splitLines, ih', if_neg hc]

theorem splitLines_joinNL {ls : List (List Char)} (h : ∀ l ∈ ls, '\n' ∉ l) (hne : ls ≠ []) :
    splitLines (joinNL ls) = ls := by
  induction ls with
  | nil => cases hne rfl
  | cons l ls ih =>
    cases ls with
    | nil => exact splitLines_no_newline (h l (List.mem_cons_self l []))
    | cons l2 ls2 =>
      have e : joinNL (l :: l2 :: ls2) = l ++ '\n' :: joinNL (l2 :: ls2) := rfl
      rw [e, splitLines_append_newline _ (h l (List.mem_cons_self l _)),
        ih (fun x hx => h x (List.mem_cons_of_mem _ hx)) (by simp)]

theorem splitLines_withNL {ls : List (List Char)} (h : ∀ l ∈ ls, '\n' ∉ l) :
    splitLines (JSONLPersistence.withNL ls) = ls ++ [[]] := by
  induction ls with
  | nil => rfl
  | cons l ls ih =>
    have e : JSONLPersistence.withNL (l :: ls) = l ++ '\n' :: JSONLPersistence.withNL ls := by
      simp [JSONLPersistence.withNL]
    rw [e, splitLines_append_newline _ (h l (List.mem_cons_self l _)),
      ih (fun x hx => h x (List.mem_cons_of_mem _ hx))]
    rfl

theorem withNL_append (ls ms : List (List Char)) :
    JSONLPersistence.withNL (ls ++ ms)
      = JSONLPersistence.withNL ls ++ JSONLPersistence.withNL ms := by
  simp [JSONLPersistence.withNL]

theorem stripChars_eq_self {a b : Char} (m : List Char)
    (ha : isWsChar a = false) (hb : isWsChar b = false) :
    stripChars (a :: (m ++ [b])) = a :: (m ++ [b]) := by
  have h1 : (a :: (m ++ [b])).dropWhile isWsChar = a :: (m ++ [b]) := by
    rw [List.dropWhile_cons, if_neg (by simp [ha])]
  have h2 : (a :: (m ++ [b])).reverse = b :: (a :: m).reverse := by
    have e : a :: (m ++ [b]) = (a :: m) ++ [b] := by simp
    rw [e, List.reverse_append]
    rfl
  have h3 : (b :: (a :: m).reverse).dropWhile isWsChar = b :: (a :: m).reverse := by
    rw [List.dropWhile_cons, if_neg (by simp [hb])]
  unfold stripChars
  rw [h1, h2, h3, ← h2, List.reverse_reverse]

theorem sliceLast_eq_takeLast {n : Nat} (hn : n ≠ 0) (l : List α) :
    sliceLast n l = takeLast n l := by
  simp [sliceLast, takeLast, hn]

theorem takeLast_eq_reverse (n : Nat) (l : List α) :
    takeLast n l = (l.reverse.take n).reverse := by
  rcases le_total n l.length with h | h
  · have e : l.length - (l.length - n) = n := by omega
    rw [takeLast, ← List.reverse_reverse (l.drop (l.length - n)), List.reverse_drop, e]
  · have e : l.length - n = 0 := by omega
    rw [takeLast, e, List.drop_zero,
      List.take_of_length_le (by simpa using h), List.reverse_reverse]

theorem take_append_take (n : Nat) (a b : List α) :
    (a ++ b.take n).take n = (a ++ b).take n := by
  rcases le_total n a.length with h | h
  · rw [List.take_append_of_le_length h, List.take_append_of_le_length h]
  · rw [List.take_append_eq_append_take, List.take_append_eq_append_take, List.take_take,
      Nat.min_eq_left (Nat.sub_le n a.length)]

theorem takeLast_takeLast_append (n : Nat) (l m : List α) :
    takeLast n (takeLast n l ++ m) = takeLast n (l ++ m) := by
  rw [takeLast_eq_reverse n (takeLast n l ++ m), takeLast_eq_reverse n (l ++ m),
    List.reverse_append, List.reverse_append, takeLast_eq_reverse n l,
    List.reverse_reverse, take_append_take]

theorem takeLast_length_le (n : Nat) (l : List α) : (takeLast n l).length ≤ n := by
  simp [takeLast]
  omega

theorem getLast?_sliceLast (n : Nat) (m : List α) (x : α) :
    (sliceLast n (m ++ [x])).getLast? = some x := by
  by_cases hn : n = 0
  · simp [sliceLast, hn]
  · rw [sliceLast_eq_takeLast hn, takeLast,
      List.drop_append_of_le_length (by simp; omega), List.getLast?_concat]

/-! ## Lemmas on the serializer and the strict parser -/

theorem parseStr_append {s : List Char} (rest : List Char) (hs : okStr s) :
    parseStr (s ++ '"' :: rest) = some (s, rest) := by
  induction s with
  | nil => simp [parseStr]
  | cons c cs ih =>
    have hc : okChar c = true := hs c (List.mem_cons_self c cs)
    have hq : ¬(c = '"') := by
      intro h
      rw [h] at hc
      simp [okChar] at hc
    have ih' := ih (fun d hd => hs d (List.mem_cons_of_mem _ hd))
    simp [parseStr, if_neg hq, hc, ih']

theorem parsePair_append {k v : List Char} (rest : List Char) (hk : okStr k) (hv : okStr v) :
    parsePair (dumpStr k ++ ':' :: dumpStr v ++ rest) = some ((k, v), rest) := by
  have e : dumpStr k ++ ':' :: dumpStr v ++ rest
      = '"' :: (k ++ '"' :: (':' :: '"' :: (v ++ '"' :: rest))) := by
    simp [dumpStr]
  rw [e]
  simp only [parsePair]
  rw [parseStr_append _ hk]
  simp only []
  rw [parseStr_append _ hv]
  rfl

theorem parsePairs_append {r : Rec} (fuel : Nat) (hwf : WellFormedRec r) (hne : r ≠ [])
    (hfuel : r.length ≤ fuel) :
    parsePairs fuel (dumpPairs r ++ ['}']) = some (r, ['}']) := by
  induction r generalizing fuel with
  | nil => cases hne rfl
  | cons kv rest ih =>
    obtain ⟨k, v⟩ := kv
    obtain ⟨hk, hv⟩ := hwf (k, v) (List.mem_cons_self _ _)
    cases fuel with
    | zero => simp at hfuel
    | succ f =>
      cases rest with
      | nil =>
        have e : dumpPairs [(k, v)] ++ ['}'] = dumpStr k ++ ':' :: dumpStr v ++ ['}'] := by
          simp [dumpPairs]
        rw [e]
        simp only [parsePairs]
        rw [parsePair_append _ hk hv]
        rfl
      | cons kv2 rest2 =>
        have e : dumpPairs ((k, v) :: kv2 :: rest2) ++ ['}']
            = dumpStr k ++ ':' :: dumpStr v ++ (',' :: (dumpPairs (kv2 :: rest2) ++ ['}'])) := by
          simp [dumpPairs]
        rw [e]
        simp only [parsePairs]
        rw [parsePair_append _ hk hv]
        have ih' := ih f (fun d hd => hwf d (List.mem_cons_of_mem _ hd)) (by simp)
          (by simp at hfuel ⊢; omega)
        simp [ih']

theorem dumpPairs_cons_ne_nil (kv : List Char × List Char) (rest : Rec) :
    dumpPairs (kv :: rest) ≠ [] := by
  obtain ⟨k, v⟩ := kv
  cases rest <;> simp [dumpPairs, dumpStr]

theorem length_le_dumpPairs (r : Rec) : r.length ≤ (dumpPairs r).length := by
  match r with
  | [] => simp [dumpPairs]
  | [(k, v)] => simp [dumpPairs, dumpStr]
  | (k, v) :: kv2 :: rest2 =>
    have ih := length_le_dumpPairs (kv2 :: rest2)
    have e : dumpPairs ((k, v) :: kv2 :: rest2)
        = dumpStr k ++ ':' :: dumpStr v ++ ',' :: dumpPairs (kv2 :: rest2) := rfl
    rw [e]
    simp [dumpStr] at ih ⊢
    omega

theorem json_loads_dumps {r : Rec} (hwf : WellFormedRec r) :
    json_loads (json_dumps r) = some r := by
  cases r with
  | nil => decide
  | cons kv rest =>
    have hne : dumpPairs (kv :: rest) ++ ['}'] ≠ ['}'] := by
      intro h
      have hlen := congrArg List.length h
      simp at hlen
      exact dumpPairs_cons_ne_nil kv rest hlen
    have e : json_dumps (kv :: rest) = '{' :: (dumpPairs (kv :: rest) ++ ['}']) := rfl
    rw [e]
    simp only [json_loads, if_pos rfl, if_neg hne]
    rw [parsePairs_append _ hwf (by simp)
      (by have h := length_le_dumpPairs (kv :: rest); simp at h ⊢; omega)]
    simp

theorem parseStr_okStr : ∀ {cs s rest}, parseStr cs = some (s, rest) → okStr s := by
  intro cs
  induction cs with
  | nil => intro s rest h; simp [parseStr] at h
  | cons c cs ih =>
    intro s rest h
    simp only [parseStr] at h
    by_cases hq : c = '"'
    · rw [if_pos hq] at h
      cases h
      intro d hd
      cases hd
    · rw [if_neg hq] at h
      by_cases hc : okChar c = true
      · rw [if_pos hc] at h
        cases hp : parseStr cs with
        | none => rw [hp] at h; simp at h
        | some p =>
          rw [hp] at h
          simp at h
          obtain ⟨h1, h2⟩ := h
          intro d hd
          rw [← h1] at hd
          rcases List.mem_cons.mp hd with hd | hd
          · exact hd ▸ hc
          · have hp' : parseStr cs = some (p.1, p.2) := by rw [hp]
            exact ih hp' d hd
      · rw [if_neg hc] at h
        simp at h

theorem parsePair_okStr {cs k v rest} (h : parsePair cs = some ((k, v), rest)) :
    okStr k ∧ okStr v := by
  unfold parsePair at h
  split at h
  · rename_i cs1
    split at h
    · rename_i k1 cs2 hp
      cases hp2 : parseStr cs2 with
      | none => rw [hp2] at h; simp at h
      | some p2 =>
        rw [hp2] at h
        simp at h
        obtain ⟨⟨hk, hv⟩, -⟩ := h
        constructor
        · exact hk ▸ parseStr_okStr hp
        · exact hv ▸ parseStr_okStr hp2
    · simp at h
  · simp at h

theorem parsePairs_wf : ∀ {fuel cs r rest}, parsePairs fuel cs = some (r, rest) →
    WellFormedRec r := by
  intro fuel
  induction fuel with
  | zero => intro cs r rest h; simp [parsePairs] at h
  | succ f ih =>
    intro cs r rest h
    simp only [parsePairs] at h
    cases hp : parsePair cs with
    | none => rw [hp] at h; simp at h
    | some q =>
      obtain ⟨⟨k, v⟩, r1⟩ := q
      rw [hp] at h
      dsimp only [] at h
      have hkv := parsePair_okStr hp
      have single : ∀ hr : r = [(k, v)], WellFormedRec r := by
        intro hr d hd
        rw [hr] at hd
        rcases List.mem_cons.mp hd with hd | hd
        · exact hd ▸ hkv
        · cases hd
      cases r1 with
      | nil =>
        simp at h
        exact single h.1.symm
      | cons c rest2 =>
        dsimp only [] at h
        by_cases hc : c = ','
        · rw [hc] at h
          rw [if_pos rfl] at h
          cases hp2 : parsePairs f rest2 with
          | none => rw [hp2] at h; simp at h
          | some p2 =>
            rw [hp2] at h
            simp at h
            obtain ⟨h1, -⟩ := h
            intro d hd
            rw [← h1] at hd
            rcases List.mem_cons.mp hd with hd | hd
            · exact hd ▸ hkv
            · exact ih hp2 d hd
        · rw [if_neg hc] at h
          simp at h
          exact single h.1.symm

theorem json_loads_wf {cs : List Char} {r : Rec} (h : json_loads cs = some r) :
    WellFormedRec r := by
  match cs with
  | [] => simp [json_loads] at h
  | c :: cs1 =>
    simp only [json_loads] at h
    by_cases hc : c = '{'
    · rw [if_pos hc] at h
      by_cases h1 : cs1 = ['}']
      · rw [if_pos h1] at h
        simp at h
        subst h
        intro d hd
        cases hd
      · rw [if_neg h1] at h
        cases hp : parsePairs (cs1.length + 1) cs1 with
        | none => rw [hp] at h; simp at h
        | some p =>
          obtain ⟨r1, rest1⟩ := p
          rw [hp] at h
          dsimp only [] at h
          by_cases h2 : rest1 = ['}']
          · rw [if_pos h2] at h
            simp at h
            exact h ▸ parsePairs_wf hp
          · rw [if_neg h2] at h
            simp at h
    · rw [if_neg hc] at h
      simp at h

theorem okStr_no_newline {s : List Char} (hs : okStr s) : '\n' ∉ s := by
  intro hmem
  have h := hs _ hmem
  simp [okChar] at h

theorem no_newline_dumpPairs : ∀ {r : Rec}, WellFormedRec r → '\n' ∉ dumpPairs r := by
  intro r
  match r with
  | [] => intro _ h; simp [dumpPairs] at h
  | [(k, v)] =>
    intro hwf h
    obtain ⟨hk, hv⟩ := hwf (k, v) (List.mem_cons_self _ _)
    have hk' := okStr_no_newline hk
    have hv' := okStr_no_newline hv
    simp [dumpPairs, dumpStr] at h
    tauto
  | (k, v) :: kv2 :: rest =>
    intro hwf h
    obtain ⟨hk, hv⟩ := hwf (k, v) (List.mem_cons_self _ _)
    have hk' := okStr_no_newline hk
    have hv' := okStr_no_newline hv
    have ih := no_newline_dumpPairs (fun d hd => hwf d (List.mem_cons_of_mem _ hd))
    have e : dumpPairs ((k, v) :: kv2 :: rest)
        = dumpStr k ++ ':' :: dumpStr v ++ ',' :: dumpPairs (kv2 :: rest) := rfl
    rw [e] at h
    simp [dumpStr] at h
    tauto

theorem no_newline_json_dumps {r : Rec} (hwf : WellFormedRec r) : '\n' ∉ json_dumps r := by
  intro h
  have e : json_dumps r = '{' :: (dumpPairs r ++ ['}']) := rfl
  rw [e] at h
  rcases List.mem_cons.mp h with h | h
  · cases h
  rcases List.mem_append.mp h with h | h
  · exact no_newline_dumpPairs hwf h
  · rcases List.mem_cons.mp h with h | h
    · cases h
    · cases h

theorem stripChars_json_dumps (r : Rec) : stripChars (json_dumps r) = json_dumps r := by
  have e : json_dumps r = '{' :: (dumpPairs r ++ ['}']) := rfl
  rw [e, stripChars_eq_self _ (by decide) (by decide)]

theorem json_dumps_ne_nil (r : Rec) : json_dumps r ≠ [] := by
  simp [json_dumps]

theorem parseEntry_dumps {r : Rec} (hwf : WellFormedRec r) :
    JSONLPersistence.parseEntry (json_dumps r) = some r := by
  unfold JSONLPersistence.parseEntry
  rw [stripChars_json_dumps, if_neg (json_dumps_ne_nil r)]
  exact json_loads_dumps hwf

theorem parseEntry_nil : JSONLPersistence.parseEntry [] = none := rfl

/-! ## Lemmas on loading -/

theorem load_all_withNL {rs : List Rec} (hwf : ∀ r ∈ rs, WellFormedRec r) :
    JSONLPersistence.load_all (JSONLPersistence.withNL (rs.map json_dumps)) = rs := by
  unfold JSONLPersistence.load_all
  rw [splitLines_withNL (by
    intro l hl
    rcases List.mem_map.mp hl with ⟨r, hr, hlr⟩
    exact hlr ▸ no_newline_json_dumps (hwf r hr))]
  rw [List.filterMap_append]
  have h2 : List.filterMap JSONLPersistence.parseEntry [([] : List Char)] = [] := by
    simp [parseEntry_nil]
  rw [h2, List.append_nil]
  induction rs with
  | nil => rfl
  | cons r rs ih =>
    simp only [List.map_cons, List.filterMap_cons,
      parseEntry_dumps (hwf r (List.mem_cons_self _ _))]
    rw [ih (fun x hx => hwf x (List.mem_cons_of_mem _ hx))]

theorem mem_load_all_wf {file : List Char} {r : Rec}
    (h : r ∈ JSONLPersistence.load_all file) : WellFormedRec r := by
  unfold JSONLPersistence.load_all at h
  rcases List.mem_filterMap.mp h with ⟨l, -, hl⟩
  unfold JSONLPersistence.parseEntry at hl
  by_cases hs : stripChars l = []
  · rw [if_pos hs] at hl
    cases hl
  · rw [if_neg hs] at hl
    exact json_loads_wf hl

theorem mem_of_sliceLast {n : Nat} {l : List α} {a : α} (h : a ∈ sliceLast n l) :
    a ∈ l := by
  unfold sliceLast at h
  by_cases hn : n = 0
  · rw [if_pos hn] at h
    exact h
  · rw [if_neg hn] at h
    exact List.mem_of_mem_drop h

theorem parseEntry_corrupt {c : List Char} (hc : json_loads (stripChars c) = none) :
    JSONLPersistence.parseEntry c = none := by
  unfold JSONLPersistence.parseEntry
  by_cases hs : stripChars c = []
  · rw [if_pos hs]
  · rw [if_neg hs]
    exact hc

theorem parseEntry_blank {b : List Char} (hb : stripChars b = []) :
    JSONLPersistence.parseEntry b = none := by
  unfold JSONLPersistence.parseEntry
  rw [if_pos hb]

theorem filterMap_parseEntry_render {ls : List LogLine}
    (hv : ∀ r, LogLine.valid r ∈ ls → WellFormedRec r)
    (hc : ∀ c, LogLine.corrupt c ∈ ls → json_loads (stripChars c) = none)
    (hb : ∀ b, LogLine.blank b ∈ ls → stripChars b = []) :
    (ls.map LogLine.render).filterMap JSONLPersistence.parseEntry = validRecs ls := by
  induction ls with
  | nil => rfl
  | cons l ls ih =>
    have ih' := ih (fun r hr => hv r (List.mem_cons_of_mem _ hr))
      (fun c h => hc c (List.mem_cons_of_mem _ h))
      (fun b h => hb b (List.mem_cons_of_mem _ h))
    cases l with
    | valid r =>
      simp only [List.map_cons, LogLine.render, List.filterMap_cons,
        parseEntry_dumps (hv r (List.mem_cons_self _ _))]
      rw [ih']
      rfl
    | corrupt c =>
      simp only [List.map_cons, LogLine.render, List.filterMap_cons,
        parseEntry_corrupt (hc c (List.mem_cons_self _ _))]
      rw [ih']
      rfl
    | blank b =>
      simp only [List.map_cons, LogLine.render, List.filterMap_cons,
        parseEntry_blank (hb b (List.mem_cons_self _ _))]
      rw [ih']
      rfl

theorem no_newline_render {ls : List LogLine}
    (hv : ∀ r, LogLine.valid r ∈ ls → WellFormedRec r)
    (hc : ∀ c, LogLine.corrupt c ∈ ls → '\n' ∉ c)
    (hb : ∀ b, LogLine.blank b ∈ ls → '\n' ∉ b) :
    ∀ l ∈ ls.map LogLine.render, '\n' ∉ l := by
  intro l hl
  rcases List.mem_map.mp hl with ⟨x, hx, hxl⟩
  cases x with
  | valid r => exact hxl ▸ no_newline_json_dumps (hv r hx)
  | corrupt c => exact hxl ▸ hc c hx
  | blank b => exact hxl ▸ hb b hx

theorem checkNewContent_eq (pid content : List Char) :
    FileWatcher.checkNewContent pid content
      = (JSONLPersistence.load_all content).filter
          (fun r => !(recGet r sourceKey == some pid)) := by
  unfold FileWatcher.checkNewContent JSONLPersistence.load_all
  induction splitLines content with
  | nil => rfl
  | cons l lines ih =>
    simp only [List.filterMap_cons]
    have epe : JSONLPersistence.parseEntry l
        = (if stripChars l = [] then none else json_loads (stripChars l)) := rfl
    by_cases hs : stripChars l = []
    · rw [if_pos hs, epe, if_pos hs, ih]
    · rw [if_neg hs, epe, if_neg hs]
      cases hj : json_loads (stripChars l) with
      | none => rw [ih]
      | some ev =>
        dsimp only []
        by_cases ho : recGet ev sourceKey = some pid
        · rw [if_pos ho, List.filter_cons]
          have : (!(recGet ev sourceKey == some pid)) = false := by
            simp [ho]
          rw [this, ih]
          simp
        · rw [if_neg ho, List.filter_cons]
          have : (!(recGet ev sourceKey == some pid)) = true := by
            simp [ho]
          rw [this, ih]
          simp


/-! ## Claims about the durable log and the watcher -/

/-- A concrete well-formed record used by witnesses and counterexamples. -/
def sampleRec : Rec := [(("a" : String).data, ("b" : String).data)]

/-- A second concrete record, stamped as coming from process `p1`. -/
def sampleOwnRec : Rec := [(sourceKey, ("p1" : String).data)]

/-- A third concrete record, stamped as coming from process `p2`. -/
def sampleForeignRec : Rec := [(sourceKey, ("p2" : String).data)]

/-- Concrete classified log lines used by witnesses. -/
def sampleLines : List LogLine :=
  [LogLine.valid sampleOwnRec, LogLine.corrupt ("oops" : String).data,
   LogLine.valid sampleForeignRec, LogLine.blank ("  " : String).data]

/-- C6: a watcher poll cycle never hands its delivery callback a record
whose `_source_process` equals the watcher's own process identity, and on a
file region made of classified lines it delivers exactly the parseable
nonblank records whose origin differs, in order. -/
theorem claim6_loopback_suppression (pid : List Char) :
    (∀ content r, r ∈ FileWatcher.checkNewContent pid content →
        recGet r sourceKey ≠ some pid) ∧
    (∀ ls : List LogLine,
      (∀ r, LogLine.valid r ∈ ls → WellFormedRec r) →
      (∀ c, LogLine.corrupt c ∈ ls → '\n' ∉ c ∧ json_loads (stripChars c) = none) →
      (∀ b, LogLine.blank b ∈ ls → '\n' ∉ b ∧ stripChars b = []) →
      FileWatcher.checkNewContent pid (joinNL (ls.map LogLine.render))
        = (validRecs ls).filter (fun r => !(recGet r sourceKey == some pid))) := by
  constructor
  · intro content r hr
    rw [checkNewContent_eq] at hr
    have := List.of_mem_filter hr
    simpa using this
  · intro ls hv hc hb
    rw [checkNewContent_eq]
    by_cases hls : ls = []
    · subst hls
      rfl
    · have hmapne : ls.map LogLine.render ≠ [] := by
        simpa using hls
      unfold JSONLPersistence.load_all
      rw [splitLines_joinNL
            (no_newline_render hv (fun c h => (hc c h).1) (fun b h => (hb b h).1)) hmapne,
          filterMap_parseEntry_render hv (fun c h => (hc c h).2) (fun b h => (hb b h).2)]

theorem claim6_witness :
    recGet sampleForeignRec sourceKey ≠ some (("p1" : String).data) ∧
    FileWatcher.checkNewContent (("p1" : String).data) (joinNL (sampleLines.map LogLine.render))
      = (validRecs sampleLines).filter
          (fun r => !(recGet r sourceKey == some (("p1" : String).data))) :=
  ⟨(claim6_loopback_suppression _).1 (joinNL (sampleLines.map LogLine.render))
      sampleForeignRec (by decide),
   (claim6_loopback_suppression _).2 sampleLines
      (by intro r hr; simp [sampleLines] at hr; rcases hr with h | h <;> subst h <;> decide)
      (by intro c hcm; simp [sampleLines] at hcm; subst hcm; exact ⟨by decide, by decide⟩)
      (by intro b hbm; simp [sampleLines] at hbm; subst hbm; exact ⟨by decide, by decide⟩)⟩

/-- C7 as amended: on a file of classified lines, `load` never raises, and
for `max_events ≥ 1` it returns exactly the valid records, in order,
truncated to the last `max_events`.  (At `max_events = 0`, the claim as
stated fails: the Python slice `events[-0:]` returns all records.) -/
theorem claim7_load_skips_corrupt (max_events : Nat) (ls : List LogLine)
    (hmax : 1 ≤ max_events)
    (hv : ∀ r, LogLine.valid r ∈ ls → WellFormedRec r)
    (hc : ∀ c, LogLine.corrupt c ∈ ls → '\n' ∉ c ∧ json_loads (stripChars c) = none)
    (hb : ∀ b, LogLine.blank b ∈ ls → '\n' ∉ b ∧ stripChars b = []) :
    JSONLPersistence.load max_events (joinNL (ls.map LogLine.render))
      = takeLast max_events (validRecs ls) := by
  unfold JSONLPersistence.load
  rw [sliceLast_eq_takeLast (by omega)]
  by_cases hls : ls = []
  · subst hls
    rfl
  · have hmapne : ls.map LogLine.render ≠ [] := by
      simpa using hls
    unfold JSONLPersistence.load_all
    rw [splitLines_joinNL
          (no_newline_render hv (fun c h => (hc c h).1) (fun b h => (hb b h).1)) hmapne,
        filterMap_parseEntry_render hv (fun c h => (hc c h).2) (fun b h => (hb b h).2)]

/-- C7, counterexample to the claim as stated: with `max_events = 0` the
code returns every valid record (`events[-0:]` is the whole list), not the
last zero records, which would be the empty list. -/
theorem claim7_counterexample :
    JSONLPersistence.load 0 (joinNL [json_dumps sampleRec]) = [sampleRec] ∧
    takeLast 0 [sampleRec] = [] ∧ ([sampleRec] : List Rec) ≠ [] := by
  refine ⟨by decide, by decide, by decide⟩

theorem claim7_witness :
    JSONLPersistence.load 2 (joinNL (sampleLines.map LogLine.render))
      = takeLast 2 (validRecs sampleLines) :=
  claim7_load_skips_corrupt 2 sampleLines (by decide)
    (by intro r hr; simp [sampleLines] at hr; rcases hr with h | h <;> subst h <;> decide)
    (by intro c hcm; simp [sampleLines] at hcm; subst hcm; exact ⟨by decide, by decide⟩)
    (by intro b hbm; simp [sampleLines] at hbm; subst hbm; exact ⟨by decide, by decide⟩)

/-- C8: appending a well-formed record to any newline-terminated log file
and then loading yields that record back, structurally unchanged, as the
last loaded record.  Holds for every `max_events`, including 0. -/
theorem claim8_roundtrip (max_events : Nat) (lines : List (List Char)) (r : Rec)
    (hr : WellFormedRec r) (hnl : ∀ l ∈ lines, '\n' ∉ l) :
    (JSONLPersistence.load max_events
        (JSONLPersistence.append (JSONLPersistence.withNL lines) r)).getLast?
      = some r := by
  have e : JSONLPersistence.append (JSONLPersistence.withNL lines) r
      = JSONLPersistence.withNL (lines ++ [json_dumps r]) := by
    rw [withNL_append]
    simp [JSONLPersistence.withNL, JSONLPersistence.append]
  rw [e]
  unfold JSONLPersistence.load JSONLPersistence.load_all
  rw [splitLines_withNL (by
        intro l hl
        rcases List.mem_append.mp hl with h | h
        · exact hnl l h
        · rcases List.mem_singleton.mp h with rfl
          exact no_newline_json_dumps hr)]
  rw [List.filterMap_append, List.filterMap_append]
  have h1 : List.filterMap JSONLPersistence.parseEntry [json_dumps r] = [r] := by
    simp [List.filterMap_cons, parseEntry_dumps hr]
  have h2 : List.filterMap JSONLPersistence.parseEntry [([] : List Char)] = [] := by
    simp [parseEntry_nil]
  rw [h1, h2, List.append_nil]
  exact getLast?_sliceLast _ _ _

theorem claim8_witness :
    (JSONLPersistence.load 5
        (JSONLPersistence.append
          (JSONLPersistence.withNL [json_dumps sampleOwnRec]) sampleRec)).getLast?
      = some sampleRec :=
  claim8_roundtrip 5 [json_dumps sampleOwnRec] sampleRec (by decide)
    (by intro l hl; simp at hl; subst hl; decide)

/-- C9 as amended: for `max_events ≥ 1`, `compact` is a no-op returning 0
when the record count is within the cap, and otherwise rewrites the file to
exactly the most recent `max_events` records, in order, returning how many
were dropped.  (At `max_events = 0` the rewrite keeps every record because
of the `events[-0:]` slice, while still reporting all of them removed.) -/
theorem claim9_compact (max_events : Nat) (file : List Char) (hmax : 1 ≤ max_events) :
    ((JSONLPersistence.load_all file).length ≤ max_events →
      JSONLPersistence.compact max_events file = (file, 0)) ∧
    (max_events < (JSONLPersistence.load_all file).length →
      (JSONLPersistence.compact max_events file).2
          = (JSONLPersistence.load_all file).length - max_events ∧
      JSONLPersistence.load_all (JSONLPersistence.compact max_events file).1
        = takeLast max_events (JSONLPersistence.load_all file)) := by
  constructor
  · intro h
    unfold JSONLPersistence.compact
    rw [if_pos h]
  · intro h
    unfold JSONLPersistence.compact
    rw [if_neg (by omega)]
    refine ⟨rfl, ?_⟩
    rw [load_all_withNL (by
          intro r hrm
          exact mem_load_all_wf (mem_of_sliceLast hrm))]
    rw [sliceLast_eq_takeLast (by omega)]

/-- C9, counterexample to the claim as stated: with `max_events = 0` and one
record in the log, `compact` reports 1 record removed but the rewritten file
still holds that record instead of the zero records the claim requires. -/
theorem claim9_counterexample :
    (JSONLPersistence.compact 0 (JSONLPersistence.withNL [json_dumps sampleRec])).2 = 1 ∧
    JSONLPersistence.load_all
        (JSONLPersistence.compact 0 (JSONLPersistence.withNL [json_dumps sampleRec])).1
      = [sampleRec] ∧
    ([sampleRec] : List Rec) ≠ [] := by
  refine ⟨by decide, by decide, by decide⟩

theorem claim9_witness :
    ((JSONLPersistence.load_all
          (JSONLPersistence.withNL [json_dumps sampleRec])).length ≤ 3 →
      JSONLPersistence.compact 3 (JSONLPersistence.withNL [json_dumps sampleRec])
        = (JSONLPersistence.withNL [json_dumps sampleRec], 0)) ∧
    (3 < (JSONLPersistence.load_all
          (JSONLPersistence.withNL [json_dumps sampleRec])).length →
      (JSONLPersistence.compact 3 (JSONLPersistence.withNL [json_dumps sampleRec])).2
          = (JSONLPersistence.load_all
              (JSONLPersistence.withNL [json_dumps sampleRec])).length - 3 ∧
      JSONLPersistence.load_all
          (JSONLPersistence.compact 3 (JSONLPersistence.withNL [json_dumps sampleRec])).1
        = takeLast 3 (JSONLPersistence.load_all
            (JSONLPersistence.withNL [json_dumps sampleRec]))) :=
  claim9_compact 3 (JSONLPersistence.withNL [json_dumps sampleRec]) (by decide)



/-! ## Lemmas on the stable priority sort and the registry -/

theorem insertEntry_perm (e : HandlerEntry) : ∀ (l : List HandlerEntry),
    List.Perm (insertEntry e l) (e :: l) := by
  intro l
  induction l with
  | nil => simp [insertEntry]
  | cons x xs ih =>
    unfold insertEntry
    by_cases h : e.priority < x.priority
    · rw [if_pos h]
      exact (ih.cons x).trans (List.Perm.swap e x xs)
    · rw [if_neg h]

theorem sortByPrio_perm : ∀ (l : List HandlerEntry), List.Perm (sortByPrio l) l := by
  intro l
  induction l with
  | nil => exact List.Perm.refl []
  | cons x xs ih =>
    unfold sortByPrio
    exact (insertEntry_perm x (sortByPrio xs)).trans (ih.cons x)

theorem pairwise_insertEntry {R : HandlerEntry → HandlerEntry → Prop} {e : HandlerEntry} :
    ∀ {m : List HandlerEntry},
    List.Pairwise (fun a b => b.priority < a.priority ∨ (a.priority = b.priority ∧ R a b)) m →
    (∀ b ∈ m, e.priority = b.priority → R e b) →
    List.Pairwise (fun a b => b.priority < a.priority ∨ (a.priority = b.priority ∧ R a b))
      (insertEntry e m) := by
  intro m
  induction m with
  | nil => intro _ _; exact List.pairwise_singleton _ _
  | cons a m' ih =>
    intro hm hx
    rcases List.pairwise_cons.mp hm with ⟨ha, hm'⟩
    unfold insertEntry
    by_cases h : e.priority < a.priority
    · rw [if_pos h]
      refine List.pairwise_cons.mpr
        ⟨?_, ih hm' (fun b hb hp => hx b (List.mem_cons_of_mem _ hb) hp)⟩
      intro c hc
      rcases List.mem_cons.mp ((insertEntry_perm e m').mem_iff.mp hc) with rfl | hc
      · exact Or.inl h
      · exact ha c hc
    · rw [if_neg h]
      refine List.pairwise_cons.mpr ⟨?_, hm⟩
      intro c hc
      have hle : a.priority ≤ e.priority := not_lt.mp h
      rcases List.mem_cons.mp hc with rfl | hc
      · rcases lt_or_eq_of_le hle with h1 | h1
        · exact Or.inl h1
        · exact Or.inr ⟨h1.symm, hx c (List.mem_cons_self _ _) h1.symm⟩
      · rcases ha c hc with h2 | h2
        · exact Or.inl (lt_of_lt_of_le h2 hle)
        · obtain ⟨h2a, -⟩ := h2
          rcases lt_or_eq_of_le hle with h1 | h1
          · exact Or.inl (h2a ▸ h1)
          · refine Or.inr ⟨by rw [← h1, h2a], ?_⟩
            exact hx c (List.mem_cons_of_mem _ hc) (by rw [← h1, h2a])

theorem pairwise_sortByPrio {R : HandlerEntry → HandlerEntry → Prop} :
    ∀ {l : List HandlerEntry},
    List.Pairwise (fun a b => a.priority = b.priority → R a b) l →
    List.Pairwise (fun a b => b.priority < a.priority ∨ (a.priority = b.priority ∧ R a b))
      (sortByPrio l) := by
  intro l
  induction l with
  | nil => intro _; exact List.Pairwise.nil
  | cons x xs ih =>
    intro h
    rcases List.pairwise_cons.mp h with ⟨hx, hxs⟩
    unfold sortByPrio
    exact pairwise_insertEntry (ih hxs)
      (fun b hb hp => hx b ((sortByPrio_perm xs).subset hb) hp)

theorem pairwise_entryOrd_sort_append {l : List HandlerEntry} {e : HandlerEntry} {n : Nat}
    (hl : List.Pairwise entryOrd l) (hlt : ∀ x ∈ l, x.id < n) (he : e.id = n) :
    List.Pairwise entryOrd (sortByPrio (l ++ [e])) := by
  have h0 : List.Pairwise (fun a b => a.priority = b.priority → a.id < b.id) (l ++ [e]) := by
    rw [List.pairwise_append]
    refine ⟨?_, List.pairwise_singleton _ _, ?_⟩
    · refine hl.imp ?_
      intro a b hab hp
      rcases hab with h1 | h1
      · rw [hp] at h1
        exact absurd h1 (lt_irrefl _)
      · exact h1.2
    · intro a ha b hb _
      rcases List.mem_singleton.mp hb with rfl
      rw [he]
      exact hlt a ha
  exact pairwise_sortByPrio h0

theorem mem_sortByPrio_append {l : List HandlerEntry} {e x : HandlerEntry}
    (hx : x ∈ sortByPrio (l ++ [e])) : x ∈ l ∨ x = e := by
  have := (sortByPrio_perm (l ++ [e])).subset hx
  rcases List.mem_append.mp this with h | h
  · exact Or.inl h
  · exact Or.inr (List.mem_singleton.mp h)

theorem removeFirst_sublist {i : Nat} : ∀ {l l' : List HandlerEntry},
    HandlerRegistry.removeFirst i l = some l' → List.Sublist l' l := by
  intro l
  induction l with
  | nil => intro l' h; simp [HandlerRegistry.removeFirst] at h
  | cons x xs ih =>
    intro l' h
    unfold HandlerRegistry.removeFirst at h
    by_cases hx : x.id = i
    · rw [if_pos hx] at h
      cases h
      exact List.sublist_cons_self x xs
    · rw [if_neg hx] at h
      cases hr : HandlerRegistry.removeFirst i xs with
      | none => rw [hr] at h; simp at h
      | some t =>
        rw [hr] at h
        simp at h
        rw [← h]
        exact (ih hr).cons₂ x

theorem removeFromBuckets_shape {i : Nat} : ∀ {bs bs'},
    HandlerRegistry.removeFromBuckets i bs = some bs' →
    (bs'.map Prod.fst = bs.map Prod.fst) ∧
    ∀ b' ∈ bs', ∃ b ∈ bs, b.1 = b'.1 ∧ List.Sublist b'.2 b.2 := by
  intro bs
  induction bs with
  | nil => intro bs' h; simp [HandlerRegistry.removeFromBuckets] at h
  | cons b rest ih =>
    intro bs' h
    obtain ⟨k, l⟩ := b
    unfold HandlerRegistry.removeFromBuckets at h
    cases hr : HandlerRegistry.removeFirst i l with
    | some l' =>
      rw [hr] at h
      simp at h
      rw [← h]
      refine ⟨by simp, ?_⟩
      intro b' hb'
      rcases List.mem_cons.mp hb' with rfl | hb'
      · exact ⟨(k, l), List.mem_cons_self _ _, rfl, removeFirst_sublist hr⟩
      · exact ⟨b', List.mem_cons_of_mem _ hb', rfl, List.Sublist.refl _⟩
    | none =>
      rw [hr] at h
      cases hr2 : HandlerRegistry.removeFromBuckets i rest with
      | none => rw [hr2] at h; simp at h
      | some t =>
        rw [hr2] at h
        simp at h
        rw [← h]
        obtain ⟨ihk, ihm⟩ := ih hr2
        refine ⟨by simp [ihk], ?_⟩
        intro b' hb'
        rcases List.mem_cons.mp hb' with rfl | hb'
        · exact ⟨(k, l), List.mem_cons_self _ _, rfl, List.Sublist.refl _⟩
        · obtain ⟨bb, hbb, hkk, hsub⟩ := ihm b' hb'
          exact ⟨bb, List.mem_cons_of_mem _ hbb, hkk, hsub⟩

theorem regInv_init (n : Nat) : RegInv n HandlerRegistry.init := by
  refine ⟨?_, List.Pairwise.nil, ?_⟩ <;> intro x hx <;> cases hx

theorem regInv_mono {n m : Nat} (hnm : n ≤ m) {r : HandlerRegistry} (h : RegInv n r) :
    RegInv m r := by
  obtain ⟨h1, h2, h3⟩ := h
  refine ⟨?_, h2, ?_⟩
  · intro b hb
    obtain ⟨hp, hk, ht⟩ := h1 b hb
    exact ⟨hp, hk, fun e he => ⟨(ht e he).1, lt_of_lt_of_le (ht e he).2 hnm⟩⟩
  · intro e he
    exact ⟨(h3 e he).1, lt_of_lt_of_le (h3 e he).2 hnm⟩

theorem regInv_addToBucket {n : Nat} {bs : List (String × List HandlerEntry)}
    (h1 : ∀ b ∈ bs, List.Pairwise entryOrd b.2 ∧ b.1 ≠ "*" ∧
      ∀ e ∈ b.2, e.event_type = b.1 ∧ e.id < n)
    (ev : String) (hev : ev ≠ "*") {e : HandlerEntry}
    (he : e.id = n) (het : e.event_type = ev) :
    ∀ b ∈ HandlerRegistry.addToBucket ev e bs,
      List.Pairwise entryOrd b.2 ∧ b.1 ≠ "*" ∧
      ∀ x ∈ b.2, x.event_type = b.1 ∧ x.id < n + 1 := by
  induction bs with
  | nil =>
    intro b hb
    unfold HandlerRegistry.addToBucket at hb
    rcases List.mem_singleton.mp hb with rfl
    refine ⟨List.pairwise_singleton _ _, hev, ?_⟩
    intro x hx
    rcases List.mem_singleton.mp hx with rfl
    exact ⟨het, by omega⟩
  | cons b0 rest ih =>
    intro b hb
    obtain ⟨k, l⟩ := b0
    have hb0 := h1 (k, l) (List.mem_cons_self _ _)
    unfold HandlerRegistry.addToBucket at hb
    by_cases hk : k = ev
    · rw [if_pos hk] at hb
      rcases List.mem_cons.mp hb with rfl | hb
      · refine ⟨?_, hb0.2.1, ?_⟩
        · exact pairwise_entryOrd_sort_append hb0.1
            (fun x hx => (hb0.2.2 x hx).2) he
        · intro x hx
          rcases mem_sortByPrio_append hx with hx | rfl
          · exact ⟨(hb0.2.2 x hx).1, by have := (hb0.2.2 x hx).2; omega⟩
          · exact ⟨by rw [het, hk], by omega⟩
      · obtain ⟨hp, hk2, ht⟩ := h1 b (List.mem_cons_of_mem _ hb)
        exact ⟨hp, hk2, fun x hx => ⟨(ht x hx).1, by have := (ht x hx).2; omega⟩⟩
    · rw [if_neg hk] at hb
      rcases List.mem_cons.mp hb with rfl | hb
      · exact ⟨hb0.1, hb0.2.1,
          fun x hx => ⟨(hb0.2.2 x hx).1, by have := (hb0.2.2 x hx).2; omega⟩⟩
      · exact ih (fun bb hbb => h1 bb (List.mem_cons_of_mem _ hbb)) b hb

theorem regInv_subscribe {n : Nat} {r : HandlerRegistry} (h : RegInv n r) (q : SubReq) :
    RegInv (n + 1) (r.subscribe (mkEntry n q)) := by
  obtain ⟨h1, h2, h3⟩ := h
  unfold HandlerRegistry.subscribe
  by_cases hq : (mkEntry n q).event_type = "*"
  · rw [if_pos hq]
    refine ⟨?_, ?_, ?_⟩
    · intro b hb
      obtain ⟨hp, hk, ht⟩ := h1 b hb
      exact ⟨hp, hk, fun e he => ⟨(ht e he).1, by have := (ht e he).2; omega⟩⟩
    · exact pairwise_entryOrd_sort_append h2 (fun x hx => (h3 x hx).2) rfl
    · intro e he
      rcases mem_sortByPrio_append he with he | rfl
      · exact ⟨(h3 e he).1, by have := (h3 e he).2; omega⟩
      · exact ⟨hq, by simp [mkEntry]⟩
  · rw [if_neg hq]
    refine ⟨?_, h2, ?_⟩
    · exact regInv_addToBucket h1 (mkEntry n q).event_type hq rfl rfl
    · intro e he
      exact ⟨(h3 e he).1, by have := (h3 e he).2; omega⟩

theorem regInv_unsubscribe {n : Nat} {r : HandlerRegistry} (h : RegInv n r) (i : Nat) :
    RegInv n (r.unsubscribe i).1 := by
  obtain ⟨h1, h2, h3⟩ := h
  unfold HandlerRegistry.unsubscribe
  cases hb : HandlerRegistry.removeFromBuckets i r.handlers with
  | some bs =>
    refine ⟨?_, h2, h3⟩
    intro b' hb'
    obtain ⟨-, hm⟩ := removeFromBuckets_shape hb
    obtain ⟨b, hbm, hk, hsub⟩ := hm b' hb'
    obtain ⟨hp, hk2, ht⟩ := h1 b hbm
    refine ⟨hp.sublist hsub, hk ▸ hk2, ?_⟩
    intro e he
    have := ht e (hsub.subset he)
    exact ⟨this.1.trans (by rw [hk]), this.2⟩
  | none =>
    cases hw : HandlerRegistry.removeFirst i r.wildcard_handlers with
    | some w =>
      refine ⟨h1, h2.sublist (removeFirst_sublist hw), ?_⟩
      intro e he
      exact h3 e ((removeFirst_sublist hw).subset he)
    | none => exact ⟨h1, h2, h3⟩

theorem regInv_applyOps : ∀ (ops : List RegOp) {n : Nat} {r : HandlerRegistry},
    RegInv n r → ∃ m, RegInv m (applyOps n r ops) := by
  intro ops
  induction ops with
  | nil => intro n r h; exact ⟨n, h⟩
  | cons op rest ih =>
    intro n r h
    cases op with
    | sub q => exact ih (regInv_subscribe h q)
    | unsub i => exact ih (regInv_unsubscribe h i)

theorem regInv_registryOf (ops : List RegOp) : ∃ m, RegInv m (registryOf ops) :=
  regInv_applyOps ops (regInv_init 0)

theorem regInv_bucketOf {n : Nat} {r : HandlerRegistry} (h : RegInv n r) (ev : String) :
    List.Pairwise entryOrd (HandlerRegistry.bucketOf ev r.handlers) ∧
    ∀ e ∈ HandlerRegistry.bucketOf ev r.handlers, e.event_type = ev ∧ e.id < n := by
  unfold HandlerRegistry.bucketOf
  cases hf : r.handlers.find? (fun b => b.1 == ev) with
  | none => exact ⟨List.Pairwise.nil, by simp⟩
  | some b =>
    have hmem := List.mem_of_find?_eq_some hf
    have hkey : b.1 = ev := by simpa using List.find?_some hf
    obtain ⟨hp, -, htyped⟩ := h.1 b hmem
    exact ⟨hp, fun e he => ⟨(htyped e he).1.trans hkey, (htyped e he).2⟩⟩

/-! ## Claim C1 -/

/-- A callback that returns normally, for concrete scenarios. -/
def cbOk : Event → Except Unit Unit := fun _ => Except.ok ()

/-- Registration sequence refuting the cross-list tie-break: a wildcard
handler subscribed first (id 0), then a specific handler for `"x"` (id 1),
both at priority 0. -/
def wildcardFirstOps : List RegOp :=
  [RegOp.sub ⟨"*", cbOk, 0, false, none, false⟩,
   RegOp.sub ⟨"x", cbOk, 0, false, none, false⟩]

/-- C1, counterexample to the claim as stated: with the wildcard handler
registered before the equal-priority specific handler, `get_handlers "x"`
returns the specific handler (id 1, registered second) before the wildcard
handler (id 0, registered first), so an equal-priority tie between a
specific and a wildcard handler is not broken by registration order. -/
theorem claim1_counterexample :
    (((registryOf wildcardFirstOps).get_handlers "x").map (fun h => h.id)) = [1, 0] ∧
    (((registryOf wildcardFirstOps).get_handlers "x").map (fun h => h.priority)) = [0, 0] ∧
    ([1, 0] : List Nat) ≠ [0, 1] :=
  ⟨by decide, by decide, by decide⟩

/-- C1 as amended: for every registry state reachable by subscribe and
unsubscribe operations and every non-wildcard event name, `get_handlers`
returns a list sorted by priority descending in which an equal-priority tie
between two handlers of the same kind (both specific or both wildcard) is
broken by registration order (smaller id first), and an equal-priority tie
between a specific and a wildcard handler always puts the specific handler
first, regardless of registration order. -/
theorem claim1_resolve_order (ops : List RegOp) (ev : String) (hev : ev ≠ "*") :
    List.Pairwise
      (fun a b => b.priority < a.priority ∨
        (a.priority = b.priority ∧ (a.event_type = b.event_type → a.id < b.id) ∧
          (a.event_type = "*" → b.event_type = "*")))
      ((registryOf ops).get_handlers ev) := by
  obtain ⟨n, hinv⟩ := regInv_registryOf ops
  unfold HandlerRegistry.get_handlers
  have hb := regInv_bucketOf hinv ev
  have hw2 := hinv.2.2
  have hpre : List.Pairwise
      (fun a b : HandlerEntry => a.priority = b.priority →
        (a.event_type = b.event_type → a.id < b.id) ∧
        (a.event_type = "*" → b.event_type = "*"))
      (HandlerRegistry.bucketOf ev (registryOf ops).handlers
        ++ (registryOf ops).wildcard_handlers) := by
    rw [List.pairwise_append]
    refine ⟨?_, ?_, ?_⟩
    · refine List.Pairwise.imp_of_mem ?_ hb.1
      intro a b ha hbm hab hp
      refine ⟨fun _ => ?_, fun hstar => ?_⟩
      · rcases hab with h1 | h1
        · rw [hp] at h1
          exact absurd h1 (lt_irrefl _)
        · exact h1.2
      · exact absurd ((hb.2 a ha).1 ▸ hstar) (Ne.symm hev ∘ Eq.symm)
    · refine List.Pairwise.imp_of_mem ?_ hinv.2.1
      intro a b ha hbm hab hp
      refine ⟨fun _ => ?_, fun _ => (hw2 b hbm).1⟩
      rcases hab with h1 | h1
      · rw [hp] at h1
        exact absurd h1 (lt_irrefl _)
      · exact h1.2
    · intro a ha b hbm _
      refine ⟨fun hteq => ?_, fun hstar => ?_⟩
      · exact absurd (((hb.2 a ha).1.symm.trans hteq).trans (hw2 b hbm).1) hev
      · exact absurd ((hb.2 a ha).1 ▸ hstar) (Ne.symm hev ∘ Eq.symm)
  exact pairwise_sortByPrio hpre

theorem claim1_witness :
    ("x" : String) ≠ "*" ∧
    List.Pairwise
      (fun a b => b.priority < a.priority ∨
        (a.priority = b.priority ∧ (a.event_type = b.event_type → a.id < b.id) ∧
          (a.event_type = "*" → b.event_type = "*")))
      ((registryOf wildcardFirstOps).get_handlers "x") :=
  ⟨by decide, claim1_resolve_order wildcardFirstOps "x" (by decide)⟩



/-! ## Lemmas on the dispatch loop -/

theorem passes_none {ev : Event} {h : HandlerEntry} (hf : h.filter_fn = none) :
    passes ev h = true := by
  unfold passes
  rw [hf]

theorem passes_some {ev : Event} {h : HandlerEntry} {f : Event → Except Unit Bool} {b : Bool}
    (hf : h.filter_fn = some f) (hb : f ev = Except.ok b) : passes ev h = b := by
  simp [passes, hf, hb]

theorem invokedIds_cons_true {ev : Event} {h : HandlerEntry} {hs : List HandlerEntry}
    (hp : passes ev h = true) : invokedIds ev (h :: hs) = h.id :: invokedIds ev hs := by
  simp [invokedIds, List.filter_cons, hp]

theorem invokedIds_cons_false {ev : Event} {h : HandlerEntry} {hs : List HandlerEntry}
    (hp : passes ev h = false) : invokedIds ev (h :: hs) = invokedIds ev hs := by
  simp [invokedIds, List.filter_cons, hp]

theorem caughtIds_cons_true {ev : Event} {h : HandlerEntry} {hs : List HandlerEntry}
    (hp : passes ev h = true) :
    caughtIds ev (h :: hs)
      = (match h.callback ev with
          | .error _ => [h.id]
          | .ok _ => []) ++ caughtIds ev hs := by
  unfold caughtIds
  rw [List.filter_cons, if_pos hp, List.filter_cons]
  cases hcb : h.callback ev with
  | ok u => simp [hcb]
  | error u => simp [hcb]

theorem caughtIds_cons_false {ev : Event} {h : HandlerEntry} {hs : List HandlerEntry}
    (hp : passes ev h = false) : caughtIds ev (h :: hs) = caughtIds ev hs := by
  unfold caughtIds
  rw [List.filter_cons, if_neg (by simp [hp])]

theorem removalIds_cons_true {ev : Event} {h : HandlerEntry} {hs : List HandlerEntry}
    (hp : passes ev h = true) :
    removalIds ev (h :: hs) = (if h.once then [h.id] else []) ++ removalIds ev hs := by
  unfold removalIds
  rw [List.filter_cons, if_pos hp, List.filter_cons]
  cases ho : h.once <;> simp [ho]

theorem removalIds_cons_false {ev : Event} {h : HandlerEntry} {hs : List HandlerEntry}
    (hp : passes ev h = false) : removalIds ev (h :: hs) = removalIds ev hs := by
  unfold removalIds
  rw [List.filter_cons, if_neg (by simp [hp])]

theorem runHandlers_append (ev : Event) : ∀ (l₁ l₂ : List HandlerEntry) (acc : DispatchAcc),
    (∀ g ∈ l₁, filterOk ev g) →
    runHandlers ev (l₁ ++ l₂) acc =
      runHandlers ev l₂ ⟨acc.invoked ++ invokedIds ev l₁, acc.caught ++ caughtIds ev l₁,
        acc.toRemove ++ removalIds ev l₁⟩ := by
  intro l₁
  induction l₁ with
  | nil =>
    intro l₂ acc _
    simp [invokedIds, caughtIds, removalIds]
  | cons h hs ih =>
    intro l₂ acc hok
    have hfo := hok h (List.mem_cons_self _ _)
    have ih' := fun acc2 => ih l₂ acc2 (fun g hg => hok g (List.mem_cons_of_mem _ hg))
    cases hf : h.filter_fn with
    | none =>
      have hp : passes ev h = true := passes_none hf
      simp only [List.cons_append, runHandlers, hf, List.append_eq]
      rw [ih']
      rw [invokedIds_cons_true hp, caughtIds_cons_true hp, removalIds_cons_true hp]
      simp [List.append_assoc]
    | some f =>
      cases hfe : f ev with
      | error u =>
        cases u
        exact absurd hfe (hfo f hf)
      | ok b =>
        have hp : passes ev h = b := passes_some hf hfe
        cases b with
        | false =>
          simp only [List.cons_append, runHandlers, hf, hfe, List.append_eq]
          rw [ih']
          rw [invokedIds_cons_false hp, caughtIds_cons_false hp, removalIds_cons_false hp]
        | true =>
          simp only [List.cons_append, runHandlers, hf, hfe, List.append_eq]
          rw [ih']
          rw [invokedIds_cons_true hp, caughtIds_cons_true hp, removalIds_cons_true hp]
          simp [List.append_assoc]

theorem runHandlers_eq_of_filterOk {ev : Event} {l : List HandlerEntry}
    (h : ∀ g ∈ l, filterOk ev g) (acc : DispatchAcc) :
    runHandlers ev l acc = (⟨acc.invoked ++ invokedIds ev l, acc.caught ++ caughtIds ev l,
      acc.toRemove ++ removalIds ev l⟩, none) := by
  have e := runHandlers_append ev l [] acc h
  rw [List.append_nil] at e
  rw [e]
  rfl

theorem runHandlers_raise {ev : Event} {l₁ l₂ : List HandlerEntry} {hk : HandlerEntry}
    {f : Event → Except Unit Bool} (h1 : ∀ g ∈ l₁, filterOk ev g)
    (hf : hk.filter_fn = some f) (hr : f ev = Except.error ()) (acc : DispatchAcc) :
    runHandlers ev (l₁ ++ hk :: l₂) acc
      = (⟨acc.invoked ++ invokedIds ev l₁, acc.caught ++ caughtIds ev l₁,
          acc.toRemove ++ removalIds ev l₁⟩, some hk.id) := by
  rw [runHandlers_append ev l₁ (hk :: l₂) acc h1]
  simp only [runHandlers, hf, hr]

theorem filterOk_of_runHandlers_none {ev : Event} : ∀ {l : List HandlerEntry}
    {acc : DispatchAcc}, (runHandlers ev l acc).2 = none → ∀ g ∈ l, filterOk ev g := by
  intro l
  induction l with
  | nil => intro acc _ g hg; cases hg
  | cons h hs ih =>
    intro acc hr g hg
    cases hf : h.filter_fn with
    | none =>
      simp only [runHandlers, hf] at hr
      rcases List.mem_cons.mp hg with rfl | hg
      · intro f hff
        rw [hf] at hff
        cases hff
      · exact ih hr g hg
    | some f =>
      cases hfe : f ev with
      | error u =>
        simp only [runHandlers, hf, hfe] at hr
        cases hr
      | ok b =>
        have hgok : filterOk ev h := by
          intro f' hff
          rw [hf] at hff
          cases hff
          rw [hfe]
          intro hcontra
          cases hcontra
        rcases List.mem_cons.mp hg with rfl | hg
        · exact hgok
        · cases b with
          | false =>
            simp only [runHandlers, hf, hfe] at hr
            exact ih hr g hg
          | true =>
            simp only [runHandlers, hf, hfe] at hr
            exact ih hr g hg



/-! ## Emit-level characterizations -/

theorem emit_async_eq_of_filterOk {bus : EventBus} {ev : Event}
    (h : ∀ g ∈ bus.registry.get_handlers ev.event_type, filterOk ev g) :
    bus.emit_async ev =
      ⟨{ registry := removeAll bus.registry
            (removalIds ev (bus.registry.get_handlers ev.event_type)),
         history := dequeAppend bus.history_limit bus.history (eventDict ev bus.process_id),
         history_limit := bus.history_limit, err_cb := bus.err_cb,
         process_id := bus.process_id },
       ev, bus.registry.get_handlers ev.event_type,
       invokedIds ev (bus.registry.get_handlers ev.event_type),
       if bus.err_cb then caughtIds ev (bus.registry.get_handlers ev.event_type) else [],
       none⟩ := by
  unfold EventBus.emit_async
  dsimp only
  rw [runHandlers_eq_of_filterOk h ⟨[], [], []⟩]
  simp

theorem emit_async_eq_raise {bus : EventBus} {ev : Event} {l₁ l₂ : List HandlerEntry}
    {hk : HandlerEntry} {f : Event → Except Unit Bool}
    (hres : bus.registry.get_handlers ev.event_type = l₁ ++ hk :: l₂)
    (h1 : ∀ g ∈ l₁, filterOk ev g)
    (hf : hk.filter_fn = some f) (hr : f ev = Except.error ()) :
    bus.emit_async ev =
      ⟨{ registry := bus.registry,
         history := dequeAppend bus.history_limit bus.history (eventDict ev bus.process_id),
         history_limit := bus.history_limit, err_cb := bus.err_cb,
         process_id := bus.process_id },
       ev, l₁ ++ hk :: l₂,
       invokedIds ev l₁,
       if bus.err_cb then caughtIds ev l₁ else [],
       some hk.id⟩ := by
  unfold EventBus.emit_async
  dsimp only
  rw [hres, runHandlers_raise h1 hf hr ⟨[], [], []⟩]
  simp

theorem emit_sync_eq_of_filterOk {bus : EventBus} {ev : Event}
    (h : ∀ g ∈ (bus.registry.get_handlers ev.event_type).filter (fun x => !x.is_async),
      filterOk ev g) :
    bus.emit_sync ev =
      ⟨{ registry := removeAll bus.registry
            (removalIds ev ((bus.registry.get_handlers ev.event_type).filter
              (fun x => !x.is_async))),
         history := dequeAppend bus.history_limit bus.history (eventDict ev bus.process_id),
         history_limit := bus.history_limit, err_cb := bus.err_cb,
         process_id := bus.process_id },
       ev, (bus.registry.get_handlers ev.event_type).filter (fun x => !x.is_async),
       invokedIds ev ((bus.registry.get_handlers ev.event_type).filter (fun x => !x.is_async)),
       if bus.err_cb then
         caughtIds ev ((bus.registry.get_handlers ev.event_type).filter (fun x => !x.is_async))
       else [],
       none⟩ := by
  unfold EventBus.emit_sync
  dsimp only
  rw [runHandlers_eq_of_filterOk h ⟨[], [], []⟩]
  simp

theorem emit_sync_eq_raise {bus : EventBus} {ev : Event} {l₁ l₂ : List HandlerEntry}
    {hk : HandlerEntry} {f : Event → Except Unit Bool}
    (hres : (bus.registry.get_handlers ev.event_type).filter (fun x => !x.is_async)
      = l₁ ++ hk :: l₂)
    (h1 : ∀ g ∈ l₁, filterOk ev g)
    (hf : hk.filter_fn = some f) (hr : f ev = Except.error ()) :
    bus.emit_sync ev =
      ⟨{ registry := bus.registry,
         history := dequeAppend bus.history_limit bus.history (eventDict ev bus.process_id),
         history_limit := bus.history_limit, err_cb := bus.err_cb,
         process_id := bus.process_id },
       ev, l₁ ++ hk :: l₂,
       invokedIds ev l₁,
       if bus.err_cb then caughtIds ev l₁ else [],
       some hk.id⟩ := by
  unfold EventBus.emit_sync
  dsimp only
  rw [hres, runHandlers_raise h1 hf hr ⟨[], [], []⟩]
  simp

theorem emit_async_raised_none_iff {bus : EventBus} {ev : Event} :
    (bus.emit_async ev).raised = none ↔
      ∀ g ∈ bus.registry.get_handlers ev.event_type, filterOk ev g := by
  constructor
  · intro h
    unfold EventBus.emit_async at h
    dsimp only at h
    cases hrh : runHandlers ev (bus.registry.get_handlers ev.event_type) ⟨[], [], []⟩ with
    | mk acc opt =>
      rw [hrh] at h
      cases opt with
      | some i => simp at h
      | none =>
        intro g hg
        exact filterOk_of_runHandlers_none (by rw [hrh]) g hg
  · intro h
    rw [emit_async_eq_of_filterOk h]

/-! ## Counting and membership lemmas for handler ids -/

theorem count_invokedIds_le (ev : Event) (i : Nat) (hs : List HandlerEntry) :
    (invokedIds ev hs).count i ≤ idCount i hs := by
  unfold invokedIds idCount
  rw [List.count_eq_countP, List.countP_map, List.countP_filter]
  exact List.countP_mono_left (fun x _ hx => by
    simp at hx
    simp [hx.1])

theorem mem_invokedIds {ev : Event} {g : HandlerEntry} {hs : List HandlerEntry}
    (hg : g ∈ hs) (hp : passes ev g = true) : g.id ∈ invokedIds ev hs :=
  List.mem_map_of_mem _ (List.mem_filter.mpr ⟨hg, hp⟩)

theorem mem_removalIds {ev : Event} {g : HandlerEntry} {hs : List HandlerEntry}
    (hg : g ∈ hs) (hp : passes ev g = true) (ho : g.once = true) :
    g.id ∈ removalIds ev hs :=
  List.mem_map_of_mem _ (List.mem_filter.mpr ⟨List.mem_filter.mpr ⟨hg, hp⟩, ho⟩)

theorem exists_of_mem_invokedIds {ev : Event} {i : Nat} {hs : List HandlerEntry}
    (h : i ∈ invokedIds ev hs) : ∃ g ∈ hs, g.id = i ∧ passes ev g = true := by
  rcases List.mem_map.mp h with ⟨g, hg, hgi⟩
  rcases List.mem_filter.mp hg with ⟨hmem, hp⟩
  exact ⟨g, hmem, hgi, hp⟩

theorem exists_of_mem_removalIds {ev : Event} {i : Nat} {hs : List HandlerEntry}
    (h : i ∈ removalIds ev hs) :
    ∃ g ∈ hs, g.id = i ∧ passes ev g = true ∧ g.once = true := by
  rcases List.mem_map.mp h with ⟨g, hg, hgi⟩
  rcases List.mem_filter.mp hg with ⟨hg2, ho⟩
  rcases List.mem_filter.mp hg2 with ⟨hmem, hp⟩
  exact ⟨g, hmem, hgi, hp, ho⟩

theorem get_handlers_perm (r : HandlerRegistry) (ev : String) :
    List.Perm (r.get_handlers ev)
      (HandlerRegistry.bucketOf ev r.handlers ++ r.wildcard_handlers) :=
  sortByPrio_perm _

theorem bucketOf_cases (ev : String) (bs : List (String × List HandlerEntry)) :
    HandlerRegistry.bucketOf ev bs = [] ∨
    HandlerRegistry.bucketOf ev bs ∈ bs.map Prod.snd := by
  unfold HandlerRegistry.bucketOf
  cases hf : bs.find? (fun b => b.1 == ev) with
  | none => exact Or.inl rfl
  | some b => exact Or.inr (List.mem_map_of_mem _ (List.mem_of_find?_eq_some hf))

theorem countP_le_countP_flatten {p : HandlerEntry → Bool} :
    ∀ {L : List (List HandlerEntry)} {l : List HandlerEntry}, l ∈ L →
    l.countP p ≤ (L.flatten).countP p := by
  intro L
  induction L with
  | nil => intro l h; cases h
  | cons x xs ih =>
    intro l h
    rw [List.flatten_cons, List.countP_append]
    rcases List.mem_cons.mp h with rfl | h
    · exact Nat.le_add_right _ _
    · exact le_trans (ih h) (Nat.le_add_left _ _)

theorem idCount_get_handlers_le (i : Nat) (r : HandlerRegistry) (ev : String) :
    idCount i (r.get_handlers ev) ≤ idCount i r.allEntries := by
  unfold idCount HandlerRegistry.allEntries
  rw [(get_handlers_perm r ev).countP_eq, List.countP_append, List.countP_append]
  have hb : (HandlerRegistry.bucketOf ev r.handlers).countP (fun e => e.id == i)
      ≤ ((r.handlers.map Prod.snd).flatten).countP (fun e => e.id == i) := by
    rcases bucketOf_cases ev r.handlers with h | h
    · rw [h]
      simp
    · exact countP_le_countP_flatten h
  omega

theorem mem_get_handlers {r : HandlerRegistry} {ev : String} {h : HandlerEntry}
    (hm : h ∈ r.get_handlers ev) : h ∈ r.allEntries := by
  have hm2 := (get_handlers_perm r ev).subset hm
  unfold HandlerRegistry.allEntries
  rcases List.mem_append.mp hm2 with h1 | h1
  · rcases bucketOf_cases ev r.handlers with h2 | h2
    · rw [h2] at h1
      cases h1
    · exact List.mem_append.mpr (Or.inl (List.mem_flatten.mpr ⟨_, h2, h1⟩))
  · exact List.mem_append.mpr (Or.inr h1)



/-! ## Lemmas on unsubscription -/

theorem removeFirst_none_iff {i : Nat} : ∀ {l : List HandlerEntry},
    HandlerRegistry.removeFirst i l = none ↔ ∀ e ∈ l, e.id ≠ i := by
  intro l
  induction l with
  | nil => simp [HandlerRegistry.removeFirst]
  | cons x xs ih =>
    unfold HandlerRegistry.removeFirst
    by_cases hx : x.id = i
    · rw [if_pos hx]
      simp [hx]
    · rw [if_neg hx]
      constructor
      · intro h e he
        rcases List.mem_cons.mp he with rfl | he
        · exact hx
        · cases hr : HandlerRegistry.removeFirst i xs with
          | none => exact ih.mp hr e he
          | some t => rw [hr] at h; simp at h
      · intro h
        rw [ih.mpr (fun e he => h e (List.mem_cons_of_mem _ he))]
        rfl

theorem removeFirst_perm {i : Nat} : ∀ {l l' : List HandlerEntry},
    HandlerRegistry.removeFirst i l = some l' →
    ∃ a, a.id = i ∧ List.Perm l (a :: l') := by
  intro l
  induction l with
  | nil => intro l' h; simp [HandlerRegistry.removeFirst] at h
  | cons x xs ih =>
    intro l' h
    unfold HandlerRegistry.removeFirst at h
    by_cases hx : x.id = i
    · rw [if_pos hx] at h
      cases h
      exact ⟨x, hx, List.Perm.refl _⟩
    · rw [if_neg hx] at h
      cases hr : HandlerRegistry.removeFirst i xs with
      | none => rw [hr] at h; simp at h
      | some t =>
        rw [hr] at h
        simp at h
        obtain ⟨a, ha, hperm⟩ := ih hr
        refine ⟨a, ha, ?_⟩
        rw [← h]
        exact (hperm.cons x).trans (List.Perm.swap a x t)

theorem removeFromBuckets_none {i : Nat} : ∀ {bs : List (String × List HandlerEntry)},
    HandlerRegistry.removeFromBuckets i bs = none →
    ∀ e ∈ (bs.map Prod.snd).flatten, e.id ≠ i := by
  intro bs
  induction bs with
  | nil => intro _ e he; cases he
  | cons b rest ih =>
    obtain ⟨k, l⟩ := b
    unfold HandlerRegistry.removeFromBuckets
    cases hr : HandlerRegistry.removeFirst i l with
    | some t =>
      intro h
      simp at h
    | none =>
      cases hr2 : HandlerRegistry.removeFromBuckets i rest with
      | some t2 =>
        intro h
        simp at h
      | none =>
        intro _ e he
        simp only [List.map_cons, List.flatten_cons] at he
        rcases List.mem_append.mp he with he | he
        · exact removeFirst_none_iff.mp hr e he
        · exact ih hr2 e he

theorem removeFromBuckets_perm {i : Nat} : ∀ {bs bs' : List (String × List HandlerEntry)},
    HandlerRegistry.removeFromBuckets i bs = some bs' →
    ∃ a, a.id = i ∧
      List.Perm ((bs.map Prod.snd).flatten) (a :: (bs'.map Prod.snd).flatten) := by
  intro bs
  induction bs with
  | nil => intro bs' h; simp [HandlerRegistry.removeFromBuckets] at h
  | cons b rest ih =>
    intro bs' h
    obtain ⟨k, l⟩ := b
    unfold HandlerRegistry.removeFromBuckets at h
    cases hr : HandlerRegistry.removeFirst i l with
    | some t =>
      rw [hr] at h
      simp at h
      obtain ⟨a, ha, hperm⟩ := removeFirst_perm hr
      refine ⟨a, ha, ?_⟩
      rw [← h]
      simp only [List.map_cons, List.flatten_cons]
      exact (hperm.append_right _).trans (List.Perm.refl _)
    | none =>
      rw [hr] at h
      cases hr2 : HandlerRegistry.removeFromBuckets i rest with
      | none => rw [hr2] at h; simp at h
      | some t2 =>
        rw [hr2] at h
        simp at h
        obtain ⟨a, ha, hperm⟩ := ih hr2
        refine ⟨a, ha, ?_⟩
        rw [← h]
        simp only [List.map_cons, List.flatten_cons]
        exact ((hperm.append_left l).trans (List.perm_middle.symm).symm)

theorem unsubscribe_cases (r : HandlerRegistry) (i : Nat) :
    ((r.unsubscribe i).1 = r ∧ ∀ e ∈ r.allEntries, e.id ≠ i) ∨
    (∃ a, a.id = i ∧
      List.Perm r.allEntries (a :: (r.unsubscribe i).1.allEntries)) := by
  unfold HandlerRegistry.unsubscribe
  cases hb : HandlerRegistry.removeFromBuckets i r.handlers with
  | some bs =>
    right
    obtain ⟨a, ha, hperm⟩ := removeFromBuckets_perm hb
    refine ⟨a, ha, ?_⟩
    unfold HandlerRegistry.allEntries
    simp only []
    exact (hperm.append_right r.wildcard_handlers).trans (List.Perm.refl _)
  | none =>
    cases hw : HandlerRegistry.removeFirst i r.wildcard_handlers with
    | some w =>
      right
      obtain ⟨a, ha, hperm⟩ := removeFirst_perm hw
      refine ⟨a, ha, ?_⟩
      unfold HandlerRegistry.allEntries
      simp only []
      exact ((hperm.append_left _).trans (List.perm_middle.symm).symm)
    | none =>
      left
      refine ⟨rfl, ?_⟩
      intro e he
      unfold HandlerRegistry.allEntries at he
      rcases List.mem_append.mp he with he | he
      · exact removeFromBuckets_none hb e he
      · exact removeFirst_none_iff.mp hw e he

theorem idCount_unsubscribe_le (r : HandlerRegistry) (i j : Nat) :
    idCount j ((r.unsubscribe i).1.allEntries) ≤ idCount j r.allEntries := by
  rcases unsubscribe_cases r i with ⟨heq, -⟩ | ⟨a, -, hperm⟩
  · rw [heq]
  · unfold idCount
    rw [hperm.countP_eq, List.countP_cons]
    omega

theorem idCount_unsubscribe_other {r : HandlerRegistry} {i j : Nat} (hij : j ≠ i) :
    idCount j ((r.unsubscribe i).1.allEntries) = idCount j r.allEntries := by
  rcases unsubscribe_cases r i with ⟨heq, -⟩ | ⟨a, ha, hperm⟩
  · rw [heq]
  · unfold idCount
    rw [hperm.countP_eq, List.countP_cons]
    have : (a.id == j) = false := by
      simp [ha]
      exact fun h => hij h.symm
    rw [this]
    simp

theorem idCount_unsubscribe_self (r : HandlerRegistry) (i : Nat)
    (hc : idCount i r.allEntries ≤ 1) :
    idCount i ((r.unsubscribe i).1.allEntries) = 0 := by
  rcases unsubscribe_cases r i with ⟨heq, hno⟩ | ⟨a, ha, hperm⟩
  · rw [heq]
    unfold idCount
    rw [List.countP_eq_zero]
    intro e he
    simp [hno e he]
  · unfold idCount at hc ⊢
    rw [hperm.countP_eq, List.countP_cons] at hc
    have hbeq : (a.id == i) = true := by simp [ha]
    rw [hbeq, if_pos rfl] at hc
    omega

theorem mem_unsubscribe_of_ne {r : HandlerRegistry} {i : Nat} {e : HandlerEntry}
    (he : e ∈ r.allEntries) (hne : e.id ≠ i) :
    e ∈ (r.unsubscribe i).1.allEntries := by
  rcases unsubscribe_cases r i with ⟨heq, -⟩ | ⟨a, ha, hperm⟩
  · rw [heq]
    exact he
  · rcases List.mem_cons.mp (hperm.subset he) with rfl | h
    · exact absurd ha hne
    · exact h

theorem mem_unsubscribe_subset {r : HandlerRegistry} {i : Nat} {e : HandlerEntry}
    (he : e ∈ (r.unsubscribe i).1.allEntries) : e ∈ r.allEntries := by
  rcases unsubscribe_cases r i with ⟨heq, -⟩ | ⟨a, ha, hperm⟩
  · rw [heq] at he
    exact he
  · exact hperm.symm.subset (List.mem_cons_of_mem _ he)

/-! ## Lemmas on the deferred-removal pass -/

theorem idCount_removeAll_le (i : Nat) : ∀ (L : List Nat) (r : HandlerRegistry),
    idCount i ((removeAll r L).allEntries) ≤ idCount i r.allEntries := by
  intro L
  induction L with
  | nil => intro r; exact le_refl _
  | cons j L ih =>
    intro r
    exact le_trans (ih _) (idCount_unsubscribe_le r j i)

theorem idCount_removeAll_notmem (i : Nat) : ∀ {L : List Nat} (r : HandlerRegistry),
    i ∉ L → idCount i ((removeAll r L).allEntries) = idCount i r.allEntries := by
  intro L
  induction L with
  | nil => intro r _; rfl
  | cons j L ih =>
    intro r hL
    have hij : i ≠ j := fun h => hL (h ▸ List.mem_cons_self _ _)
    rw [show removeAll r (j :: L) = removeAll (r.unsubscribe j).1 L from rfl,
      ih _ (fun h => hL (List.mem_cons_of_mem _ h))]
    exact idCount_unsubscribe_other hij

theorem idCount_removeAll_mem (i : Nat) : ∀ {L : List Nat} (r : HandlerRegistry),
    i ∈ L → idCount i r.allEntries ≤ 1 →
    idCount i ((removeAll r L).allEntries) = 0 := by
  intro L
  induction L with
  | nil => intro r h; cases h
  | cons j L ih =>
    intro r hL hc
    rcases List.mem_cons.mp hL with rfl | hL
    · rw [show removeAll r (i :: L) = removeAll (r.unsubscribe i).1 L from rfl]
      have h0 := idCount_unsubscribe_self r i hc
      have := idCount_removeAll_le i L (r.unsubscribe i).1
      omega
    · exact ih _ hL (le_trans (idCount_unsubscribe_le r j i) hc)

theorem mem_removeAll_of_ne {e : HandlerEntry} : ∀ {L : List Nat} {r : HandlerRegistry},
    e ∈ r.allEntries → (∀ j ∈ L, e.id ≠ j) → e ∈ (removeAll r L).allEntries := by
  intro L
  induction L with
  | nil => intro r he _; exact he
  | cons j L ih =>
    intro r he h
    exact ih (mem_unsubscribe_of_ne he (h j (List.mem_cons_self _ _)))
      (fun x hx => h x (List.mem_cons_of_mem _ hx))

theorem mem_removeAll_subset {e : HandlerEntry} : ∀ {L : List Nat} {r : HandlerRegistry},
    e ∈ (removeAll r L).allEntries → e ∈ r.allEntries := by
  intro L
  induction L with
  | nil => intro r he; exact he
  | cons j L ih =>
    intro r he
    exact mem_unsubscribe_subset (ih he)

/-! ## Well-formedness of the registry under the bus operations -/

theorem wf_unsubscribe {r : HandlerRegistry} (h : WFreg r) (i : Nat) :
    WFreg (r.unsubscribe i).1 := by
  obtain ⟨h1, h2, h3⟩ := h
  unfold HandlerRegistry.unsubscribe
  cases hb : HandlerRegistry.removeFromBuckets i r.handlers with
  | some bs =>
    obtain ⟨hkeys, hm⟩ := removeFromBuckets_shape hb
    refine ⟨by rw [hkeys]; exact h1, ?_, h3⟩
    intro b' hb' e he
    obtain ⟨b, hbm, hk, hsub⟩ := hm b' hb'
    exact (h2 b hbm e (hsub.subset he)).trans hk
  | none =>
    cases hw : HandlerRegistry.removeFirst i r.wildcard_handlers with
    | some w =>
      exact ⟨h1, h2, fun e he => h3 e ((removeFirst_sublist hw).subset he)⟩
    | none => exact ⟨h1, h2, h3⟩

theorem wf_removeAll {r : HandlerRegistry} (h : WFreg r) : ∀ (L : List Nat),
    WFreg (removeAll r L) := by
  intro L
  induction L generalizing r with
  | nil => exact h
  | cons j L ih => exact ih (wf_unsubscribe h j)

theorem find?_key_nodup {bs : List (String × List HandlerEntry)}
    {b : String × List HandlerEntry}
    (hnodup : (bs.map Prod.fst).Nodup) (hb : b ∈ bs) :
    bs.find? (fun x => x.1 == b.1) = some b := by
  induction bs with
  | nil => cases hb
  | cons b0 rest ih =>
    rcases List.mem_cons.mp hb with rfl | hb
    · exact List.find?_cons_of_pos _ (by simp)
    · have hkey : b.1 ∈ rest.map Prod.fst := List.mem_map_of_mem _ hb
      have hne : ¬(b0.1 == b.1) = true := by
        simp only [List.map_cons, List.nodup_cons] at hnodup
        simp
        intro heq
        exact hnodup.1 (heq ▸ hkey)
      rw [show List.find? (fun x => x.1 == b.1) (b0 :: rest)
            = List.find? (fun x => x.1 == b.1) rest from List.find?_cons_of_neg _ hne]
      exact ih (by simp only [List.map_cons, List.nodup_cons] at hnodup; exact hnodup.2) hb

theorem mem_get_handlers_of_wf {r : HandlerRegistry} {e : HandlerEntry}
    (h : WFreg r) (he : e ∈ r.allEntries) :
    e ∈ r.get_handlers e.event_type := by
  obtain ⟨h1, h2, h3⟩ := h
  unfold HandlerRegistry.allEntries at he
  unfold HandlerRegistry.get_handlers
  rw [(sortByPrio_perm _).mem_iff]
  rcases List.mem_append.mp he with he | he
  · rcases List.mem_flatten.mp he with ⟨l, hl, hel⟩
    rcases List.mem_map.mp hl with ⟨b, hbm, rfl⟩
    have hkey : e.event_type = b.1 := h2 b hbm e hel
    have hfind : r.handlers.find? (fun x => x.1 == e.event_type) = some b := by
      rw [hkey]
      exact find?_key_nodup h1 hbm
    refine List.mem_append.mpr (Or.inl ?_)
    unfold HandlerRegistry.bucketOf
    rw [hfind]
    exact hel
  · exact List.mem_append.mpr (Or.inr he)



/-! ## Claims about dispatch: error isolation and filters -/

theorem mem_caughtIds {ev : Event} {g : HandlerEntry} {hs : List HandlerEntry}
    (hg : g ∈ hs) (hp : passes ev g = true)
    (hr : g.callback ev = Except.error ()) : g.id ∈ caughtIds ev hs := by
  unfold caughtIds
  apply List.mem_map_of_mem
  refine List.mem_filter.mpr ⟨List.mem_filter.mpr ⟨hg, hp⟩, ?_⟩
  rw [hr]

theorem eq_of_unique_id {l : List HandlerEntry} {h g : HandlerEntry}
    (hc : idCount h.id l ≤ 1) (hh : h ∈ l) (hg : g ∈ l) (hgid : g.id = h.id) : g = h := by
  have hhf : h ∈ l.filter (fun e => e.id == h.id) :=
    List.mem_filter.mpr ⟨hh, by simp⟩
  have hgf : g ∈ l.filter (fun e => e.id == h.id) :=
    List.mem_filter.mpr ⟨hg, by simp [hgid]⟩
  have hlen : (l.filter (fun e => e.id == h.id)).length ≤ 1 := by
    unfold idCount at hc
    rw [List.countP_eq_length_filter] at hc
    exact hc
  cases hf : l.filter (fun e => e.id == h.id) with
  | nil =>
    rw [hf] at hhf
    cases hhf
  | cons x xs =>
    rw [hf] at hhf hgf hlen
    cases xs with
    | nil =>
      rcases List.mem_singleton.mp hhf with rfl
      rcases List.mem_singleton.mp hgf with rfl
      rfl
    | cons y ys => simp at hlen

/-- C4: a handler whose callback raises does not make the emit raise, does
not prevent any other handler that passes its filter from being invoked,
and is forwarded to the error callback exactly when one is configured (with
the exception, the event and the handler callback); with no error callback
configured nothing is forwarded and the exception is absorbed.  Stated for
`emit_async` and, restricted to sync handlers, for `emit_sync`. -/
theorem claim4_error_isolation (bus : EventBus) (ev : Event) (hh : HandlerEntry)
    (hmem : hh ∈ bus.registry.get_handlers ev.event_type)
    (hpass : passes ev hh = true)
    (hraise : hh.callback ev = Except.error ())
    (hok : ∀ g ∈ bus.registry.get_handlers ev.event_type, filterOk ev g) :
    ((bus.emit_async ev).raised = none ∧
     (∀ g ∈ bus.registry.get_handlers ev.event_type, passes ev g = true →
        g.id ∈ (bus.emit_async ev).invoked) ∧
     (bus.err_cb = true → hh.id ∈ (bus.emit_async ev).forwarded) ∧
     (bus.err_cb = false → (bus.emit_async ev).forwarded = [])) ∧
    ((bus.emit_sync ev).raised = none ∧
     (∀ g ∈ bus.registry.get_handlers ev.event_type, g.is_async = false →
        passes ev g = true → g.id ∈ (bus.emit_sync ev).invoked) ∧
     (hh.is_async = false → bus.err_cb = true → hh.id ∈ (bus.emit_sync ev).forwarded) ∧
     (bus.err_cb = false → (bus.emit_sync ev).forwarded = [])) := by
  have hsok : ∀ g ∈ (bus.registry.get_handlers ev.event_type).filter
      (fun x => !x.is_async), filterOk ev g :=
    fun g hg => hok g (List.mem_filter.mp hg).1
  rw [emit_async_eq_of_filterOk hok, emit_sync_eq_of_filterOk hsok]
  refine ⟨⟨rfl, ?_, ?_, ?_⟩, rfl, ?_, ?_, ?_⟩
  · intro g hg hp
    exact mem_invokedIds hg hp
  · intro hcb
    rw [hcb]
    simp only [if_pos rfl]
    exact mem_caughtIds hmem hpass hraise
  · intro hcb
    rw [hcb]
    rfl
  · intro g hg hasync hp
    exact mem_invokedIds (List.mem_filter.mpr ⟨hg, by simp [hasync]⟩) hp
  · intro hasync hcb
    rw [hcb]
    simp only [if_pos rfl]
    exact mem_caughtIds (List.mem_filter.mpr ⟨hmem, by simp [hasync]⟩) hpass hraise
  · intro hcb
    rw [hcb]
    rfl

/-- C5: a filter that raises is not caught: in both emit paths the
exception escapes to the emitter (carrying the id of the handler whose
filter raised), the handlers before it in the resolved order are the only
ones invoked, and the registry is left untouched — in particular the
deferred once-removals collected so far are never applied, so handlers
already invoked with `once = true` remain subscribed. -/
theorem claim5_filter_exception_propagates (bus : EventBus) (ev : Event)
    (l₁ l₂ : List HandlerEntry) (hk : HandlerEntry) (f : Event → Except Unit Bool)
    (hres : bus.registry.get_handlers ev.event_type = l₁ ++ hk :: l₂)
    (hok : ∀ g ∈ l₁, filterOk ev g)
    (hkf : hk.filter_fn = some f) (hkr : f ev = Except.error ()) :
    ((bus.emit_async ev).raised = some hk.id ∧
     (bus.emit_async ev).invoked = invokedIds ev l₁ ∧
     (bus.emit_async ev).bus.registry = bus.registry) ∧
    (hk.is_async = false →
      (bus.emit_sync ev).raised = some hk.id ∧
      (bus.emit_sync ev).invoked = invokedIds ev (l₁.filter (fun x => !x.is_async)) ∧
      (bus.emit_sync ev).bus.registry = bus.registry) := by
  constructor
  · rw [emit_async_eq_raise hres hok hkf hkr]
    exact ⟨rfl, rfl, rfl⟩
  · intro hasync
    have hres2 : (bus.registry.get_handlers ev.event_type).filter (fun x => !x.is_async)
        = l₁.filter (fun x => !x.is_async) ++ hk :: l₂.filter (fun x => !x.is_async) := by
      rw [hres, List.filter_append, List.filter_cons]
      simp [hasync]
    have hok2 : ∀ g ∈ l₁.filter (fun x => !x.is_async), filterOk ev g :=
      fun g hg => hok g (List.mem_filter.mp hg).1
    rw [emit_sync_eq_raise hres2 hok2 hkf hkr]
    exact ⟨rfl, rfl, rfl⟩

/-- C3: a `once` handler whose filter rejects an emit (returns false) is
not invoked and not consumed by it: provided the emit runs to completion,
the handler's registration survives unchanged (same id-count, so the same
contribution to `handler_count`) and it is still resolved by `get_handlers`
for its event type, hence eligible for future emits. -/
theorem claim3_filtered_once_not_consumed (bus : EventBus) (ev : Event)
    (h : HandlerEntry) (f : Event → Except Unit Bool)
    (hwf : WFreg bus.registry)
    (hmem : h ∈ bus.registry.allEntries)
    (hcount : idCount h.id bus.registry.allEntries ≤ 1)
    (_honce : h.once = true)
    (hfil : h.filter_fn = some f)
    (hrej : f ev = Except.ok false)
    (hdone : (bus.emit_async ev).raised = none) :
    h.id ∉ (bus.emit_async ev).invoked ∧
    idCount h.id (bus.emit_async ev).bus.registry.allEntries
      = idCount h.id bus.registry.allEntries ∧
    h ∈ (bus.emit_async ev).bus.registry.get_handlers h.event_type := by
  have hok := emit_async_raised_none_iff.mp hdone
  have hpass : passes ev h = false := passes_some hfil hrej
  have hnotrem : h.id ∉ removalIds ev (bus.registry.get_handlers ev.event_type) := by
    intro hmem2
    obtain ⟨g, hgmem, hgid, hgpass, -⟩ := exists_of_mem_removalIds hmem2
    have hgh : g = h := eq_of_unique_id hcount hmem (mem_get_handlers hgmem) hgid
    rw [hgh, hpass] at hgpass
    cases hgpass
  rw [emit_async_eq_of_filterOk hok]
  refine ⟨?_, ?_, ?_⟩
  · intro hmem2
    obtain ⟨g, hgmem, hgid, hgpass⟩ := exists_of_mem_invokedIds hmem2
    have hgh : g = h := eq_of_unique_id hcount hmem (mem_get_handlers hgmem) hgid
    rw [hgh, hpass] at hgpass
    cases hgpass
  · exact idCount_removeAll_notmem _ _ hnotrem
  · have hmem2 : h ∈ (removeAll bus.registry
        (removalIds ev (bus.registry.get_handlers ev.event_type))).allEntries :=
      mem_removeAll_of_ne hmem (fun j hj heq => hnotrem (heq ▸ hj))
    exact mem_get_handlers_of_wf (wf_removeAll hwf _) hmem2



/-! ## Concrete dispatch scenarios -/

/-- A once-handler with no filter, priority 1, id 0. -/
def onceEntry : HandlerEntry := ⟨0, "x", cbOk, 1, true, none, false⟩

/-- A handler whose filter raises, priority 0, id 1. -/
def raisingFilterEntry : HandlerEntry :=
  ⟨1, "x", cbOk, 0, false, some (fun _ => Except.error ()), false⟩

/-- A handler whose callback raises, priority 2, id 5. -/
def raisingCallbackEntry : HandlerEntry :=
  ⟨5, "x", fun _ => Except.error (), 2, false, none, false⟩

/-- A once-handler with a filter that passes only positive payloads, id 2. -/
def filteredOnceEntry : HandlerEntry :=
  ⟨2, "x", cbOk, 0, true, some (fun e => Except.ok (decide (0 < e.data))), false⟩

/-- The event `"x"` with payload 0 (so `filteredOnceEntry`'s filter
rejects it). -/
def evX : Event := ⟨"x", 0⟩

/-- Bus with the once-handler followed by the filter-raising handler. -/
def abortBus : EventBus := ⟨⟨[("x", [onceEntry, raisingFilterEntry])], []⟩, [], 10, false, "p"⟩

/-- Bus with only the once-handler. -/
def onceBus : EventBus := ⟨⟨[("x", [onceEntry])], []⟩, [], 10, false, "p"⟩

/-- Bus with only the filtered once-handler. -/
def filterBus : EventBus := ⟨⟨[("x", [filteredOnceEntry])], []⟩, [], 10, false, "p"⟩

/-- Bus with the raising-callback handler before the once-handler, error
callback configured. -/
def errBus : EventBus := ⟨⟨[("x", [raisingCallbackEntry, onceEntry])], []⟩, [], 10, true, "p"⟩

/-- Bus with only the filter-raising handler. -/
def raiseBus : EventBus := ⟨⟨[("x", [raisingFilterEntry])], []⟩, [], 10, false, "p"⟩

theorem claim3_witness :
    filteredOnceEntry.id ∉ (filterBus.emit_async evX).invoked ∧
    idCount filteredOnceEntry.id (filterBus.emit_async evX).bus.registry.allEntries
      = idCount filteredOnceEntry.id filterBus.registry.allEntries ∧
    filteredOnceEntry ∈
      (filterBus.emit_async evX).bus.registry.get_handlers filteredOnceEntry.event_type :=
  claim3_filtered_once_not_consumed filterBus evX filteredOnceEntry
    (fun e => Except.ok (decide (0 < e.data)))
    (by refine ⟨by decide, ?_, ?_⟩ <;> decide)
    (List.mem_cons_self _ _)
    (by decide) rfl rfl rfl (by decide)

theorem claim4_witness :
    ((errBus.emit_async evX).raised = none ∧
     (∀ g ∈ errBus.registry.get_handlers evX.event_type, passes evX g = true →
        g.id ∈ (errBus.emit_async evX).invoked) ∧
     (errBus.err_cb = true → raisingCallbackEntry.id ∈ (errBus.emit_async evX).forwarded) ∧
     (errBus.err_cb = false → (errBus.emit_async evX).forwarded = [])) ∧
    ((errBus.emit_sync evX).raised = none ∧
     (∀ g ∈ errBus.registry.get_handlers evX.event_type, g.is_async = false →
        passes evX g = true → g.id ∈ (errBus.emit_sync evX).invoked) ∧
     (raisingCallbackEntry.is_async = false → errBus.err_cb = true →
        raisingCallbackEntry.id ∈ (errBus.emit_sync evX).forwarded) ∧
     (errBus.err_cb = false → (errBus.emit_sync evX).forwarded = [])) :=
  claim4_error_isolation errBus evX raisingCallbackEntry
    (List.mem_cons_self _ _) rfl rfl
    (by
      have hres : errBus.registry.get_handlers evX.event_type
          = [raisingCallbackEntry, onceEntry] := rfl
      rw [hres]
      intro g hg
      rcases List.mem_cons.mp hg with rfl | hg
      · intro f hf; cases hf
      rcases List.mem_cons.mp hg with rfl | hg
      · intro f hf; cases hf
      cases hg)

theorem claim5_witness :
    ((raiseBus.emit_async evX).raised = some raisingFilterEntry.id ∧
     (raiseBus.emit_async evX).invoked = invokedIds evX [] ∧
     (raiseBus.emit_async evX).bus.registry = raiseBus.registry) ∧
    (raisingFilterEntry.is_async = false →
      (raiseBus.emit_sync evX).raised = some raisingFilterEntry.id ∧
      (raiseBus.emit_sync evX).invoked
        = invokedIds evX (List.filter (fun x => !x.is_async) []) ∧
      (raiseBus.emit_sync evX).bus.registry = raiseBus.registry) :=
  claim5_filter_exception_propagates raiseBus evX [] [] raisingFilterEntry
    (fun _ => Except.error ()) rfl (fun g hg => absurd hg (List.not_mem_nil g)) rfl rfl

/-! ## Claim C2: once-handlers across emit sequences -/

theorem trace_absent {i : Nat} : ∀ {es : List Event} {bus : EventBus},
    idCount i bus.registry.allEntries = 0 →
    (∀ r ∈ runEmitsTrace bus es, r.raised = none) →
    ∀ r ∈ runEmitsTrace bus es, r.invoked.count i = 0 ∧
      idCount i r.bus.registry.allEntries = 0 := by
  intro es
  induction es with
  | nil => intro bus _ _ r hr; cases hr
  | cons e es ih =>
    intro bus h0 hdone r hr
    have hdone1 : (bus.emit_async e).raised = none :=
      hdone _ (List.mem_cons_self _ _)
    have hok := emit_async_raised_none_iff.mp hdone1
    have hchar := emit_async_eq_of_filterOk hok
    have hcount1 : (bus.emit_async e).invoked.count i = 0 := by
      rw [hchar]
      dsimp only
      have h1 := count_invokedIds_le e i (bus.registry.get_handlers e.event_type)
      have h2 := idCount_get_handlers_le i bus.registry e.event_type
      omega
    have hreg1 : idCount i (bus.emit_async e).bus.registry.allEntries = 0 := by
      rw [hchar]
      dsimp only
      have := idCount_removeAll_le i
        (removalIds e (bus.registry.get_handlers e.event_type)) bus.registry
      omega
    rcases List.mem_cons.mp hr with rfl | hr
    · exact ⟨hcount1, hreg1⟩
    · exact ih hreg1 (fun r2 hr2 => hdone r2 (List.mem_cons_of_mem _ hr2)) r hr

theorem trace_deferred : ∀ {es : List Event} {bus : EventBus},
    (∀ r ∈ runEmitsTrace bus es, r.raised = none) →
    ∀ r ∈ runEmitsTrace bus es, ∀ g ∈ r.resolved, passes r.event g = true →
      g.id ∈ r.invoked := by
  intro es
  induction es with
  | nil => intro bus _ r hr; cases hr
  | cons e es ih =>
    intro bus hdone r hr
    have hdone1 : (bus.emit_async e).raised = none :=
      hdone _ (List.mem_cons_self _ _)
    rcases List.mem_cons.mp hr with rfl | hr
    · have hok := emit_async_raised_none_iff.mp hdone1
      rw [emit_async_eq_of_filterOk hok]
      dsimp only
      intro g hg hp
      exact mem_invokedIds hg hp
    · exact ih (fun r2 hr2 => hdone r2 (List.mem_cons_of_mem _ hr2)) r hr

theorem once_trace_aux {i : Nat} : ∀ {es : List Event} {bus : EventBus},
    idCount i bus.registry.allEntries ≤ 1 →
    (∀ e ∈ bus.registry.allEntries, e.id = i → e.once = true) →
    (∀ r ∈ runEmitsTrace bus es, r.raised = none) →
    ((runEmitsTrace bus es).map (fun r => r.invoked.count i)).sum ≤ 1 ∧
    (∀ r ∈ runEmitsTrace bus es, i ∈ r.invoked →
      idCount i r.bus.registry.allEntries = 0) := by
  intro es
  induction es with
  | nil =>
    intro bus _ _ _
    exact ⟨by simp [runEmitsTrace], fun r hr => absurd hr (List.not_mem_nil r)⟩
  | cons e es ih =>
    intro bus hcount honce hdone
    have hdone1 : (bus.emit_async e).raised = none :=
      hdone _ (List.mem_cons_self _ _)
    have hok := emit_async_raised_none_iff.mp hdone1
    have hchar := emit_async_eq_of_filterOk hok
    have htail : ∀ r ∈ runEmitsTrace (bus.emit_async e).bus es, r.raised = none :=
      fun r hr => hdone r (List.mem_cons_of_mem _ hr)
    by_cases hin : i ∈ (bus.emit_async e).invoked
    · have hrem : i ∈ removalIds e (bus.registry.get_handlers e.event_type) := by
        rw [hchar] at hin
        dsimp only at hin
        obtain ⟨g, hgmem, hgid, hgpass⟩ := exists_of_mem_invokedIds hin
        have hgonce : g.once = true := honce g (mem_get_handlers hgmem) hgid
        exact hgid ▸ mem_removalIds hgmem hgpass hgonce
      have hreg0 : idCount i (bus.emit_async e).bus.registry.allEntries = 0 := by
        rw [hchar]
        dsimp only
        exact idCount_removeAll_mem i bus.registry hrem hcount
      have hc1 : (bus.emit_async e).invoked.count i ≤ 1 := by
        rw [hchar]
        dsimp only
        exact le_trans (count_invokedIds_le e i _)
          (le_trans (idCount_get_handlers_le i _ _) hcount)
      have habsent := trace_absent hreg0 htail
      constructor
      · have hsum0 : ((runEmitsTrace (bus.emit_async e).bus es).map
            (fun r => r.invoked.count i)).sum = 0 := by
          apply List.sum_eq_zero
          intro x hx
          rcases List.mem_map.mp hx with ⟨r, hr, rfl⟩
          exact (habsent r hr).1
        show ((bus.emit_async e).invoked.count i
            + ((runEmitsTrace (bus.emit_async e).bus es).map
                (fun r => r.invoked.count i)).sum) ≤ 1
        omega
      · intro r hr hrin
        rcases List.mem_cons.mp hr with rfl | hr
        · exact hreg0
        · exact (habsent r hr).2
    · have hcount1 : idCount i (bus.emit_async e).bus.registry.allEntries
          ≤ idCount i bus.registry.allEntries := by
        rw [hchar]
        dsimp only
        exact idCount_removeAll_le i _ bus.registry
      have honce1 : ∀ x ∈ (bus.emit_async e).bus.registry.allEntries,
          x.id = i → x.once = true := by
        rw [hchar]
        dsimp only
        intro x hx hxi
        exact honce x (mem_removeAll_subset hx) hxi
      have ih' := ih (le_trans hcount1 hcount) honce1 htail
      constructor
      · have hc0 : (bus.emit_async e).invoked.count i = 0 :=
          List.count_eq_zero.mpr hin
        show ((bus.emit_async e).invoked.count i
            + ((runEmitsTrace (bus.emit_async e).bus es).map
                (fun r => r.invoked.count i)).sum) ≤ 1
        omega
      · intro r hr hrin
        rcases List.mem_cons.mp hr with rfl | hr
        · exact absurd hrin hin
        · exact ih'.2 r hr hrin

/-- C2, counterexample to the claim as stated: the once-handler (id 0, no
filter) is invoked twice across two emits of its event name, because a
lower-priority handler's filter raises during each emit, so each emit
aborts before the deferred once-removal is applied and the handler stays
subscribed. -/
theorem claim2_counterexample :
    onceEntry.once = true ∧ onceEntry.filter_fn = none ∧
    ((runEmitsTrace abortBus [evX, evX]).map
      (fun r => r.invoked.count onceEntry.id)).sum = 2 :=
  ⟨rfl, rfl, by decide⟩

/-- C2 as amended: provided every emit of the sequence runs its full
resolved handler list to completion (no filter raises), a once-registered
handler (unique id, `once = true`) is invoked at most once across the whole
sequence; immediately after the emit in which it was invoked its id is gone
from the registry (so it no longer counts in `handler_count`); and in every
completed emit each resolved handler that passes its filter is invoked —
the deferred removal never disturbs the iteration. -/
theorem claim2_once_at_most_once (bus : EventBus) (es : List Event) (i : Nat)
    (hcount : idCount i bus.registry.allEntries ≤ 1)
    (honce : ∀ e ∈ bus.registry.allEntries, e.id = i → e.once = true)
    (hdone : ∀ r ∈ runEmitsTrace bus es, r.raised = none) :
    ((runEmitsTrace bus es).map (fun r => r.invoked.count i)).sum ≤ 1 ∧
    (∀ r ∈ runEmitsTrace bus es, i ∈ r.invoked →
      idCount i r.bus.registry.allEntries = 0) ∧
    (∀ r ∈ runEmitsTrace bus es, ∀ g ∈ r.resolved, passes r.event g = true →
      g.id ∈ r.invoked) := by
  obtain ⟨h1, h2⟩ := once_trace_aux hcount honce hdone
  exact ⟨h1, h2, trace_deferred hdone⟩

theorem claim2_witness :
    ((runEmitsTrace onceBus [evX, evX]).map (fun r => r.invoked.count 0)).sum ≤ 1 ∧
    (∀ r ∈ runEmitsTrace onceBus [evX, evX], 0 ∈ r.invoked →
      idCount 0 r.bus.registry.allEntries = 0) ∧
    (∀ r ∈ runEmitsTrace onceBus [evX, evX], ∀ g ∈ r.resolved,
      passes r.event g = true → g.id ∈ r.invoked) :=
  claim2_once_at_most_once onceBus [evX, evX] 0 (by decide)
    (by
      intro e he hei
      have hres : onceBus.registry.allEntries = [onceEntry] := rfl
      rw [hres] at he
      rcases List.mem_singleton.mp he with rfl
      rfl)
    (by decide)



/-! ## Claim C10: bounded FIFO history -/

theorem takeLast_of_le {n : Nat} {l : List α} (h : l.length ≤ n) : takeLast n l = l := by
  unfold takeLast
  rw [Nat.sub_eq_zero_of_le h, List.drop_zero]

theorem dequeAppend_takeLast (limit : Nat) (h : List EventDict) (d : EventDict) :
    dequeAppend limit h d = takeLast limit (h ++ [d]) := by
  unfold dequeAppend takeLast
  rw [List.length_append]
  rfl

theorem emit_async_bus_fields (bus : EventBus) (ev : Event) :
    (bus.emit_async ev).bus.history
        = dequeAppend bus.history_limit bus.history (eventDict ev bus.process_id) ∧
    (bus.emit_async ev).bus.history_limit = bus.history_limit ∧
    (bus.emit_async ev).bus.process_id = bus.process_id := by
  unfold EventBus.emit_async
  dsimp only
  cases runHandlers ev (bus.registry.get_handlers ev.event_type) ⟨[], [], []⟩ with
  | mk acc opt => cases opt <;> exact ⟨rfl, rfl, rfl⟩

theorem runEmits_fields : ∀ (es : List Event) (bus : EventBus),
    (runEmits bus es).history_limit = bus.history_limit ∧
    (runEmits bus es).process_id = bus.process_id := by
  intro es
  induction es with
  | nil => intro bus; exact ⟨rfl, rfl⟩
  | cons e es ih =>
    intro bus
    have hf := emit_async_bus_fields bus e
    have ih' := ih (bus.emit_async e).bus
    exact ⟨ih'.1.trans hf.2.1, ih'.2.trans hf.2.2⟩

theorem runEmits_history : ∀ (es : List Event) (bus : EventBus),
    bus.history.length ≤ bus.history_limit →
    (runEmits bus es).history = takeLast bus.history_limit
      (bus.history ++ es.map (fun e => eventDict e bus.process_id)) := by
  intro es
  induction es with
  | nil =>
    intro bus h
    rw [List.map_nil, List.append_nil]
    exact (takeLast_of_le h).symm
  | cons e es ih =>
    intro bus h
    obtain ⟨hh, hl, hp⟩ := emit_async_bus_fields bus e
    have hlen : (bus.emit_async e).bus.history.length ≤ (bus.emit_async e).bus.history_limit := by
      rw [hh, hl, dequeAppend_takeLast]
      exact takeLast_length_le _ _
    have ih' := ih (bus.emit_async e).bus hlen
    show (runEmits (bus.emit_async e).bus es).history = _
    rw [ih', hh, hl, hp, dequeAppend_takeLast, takeLast_takeLast_append]
    rw [List.map_cons, List.append_assoc]
    rfl

/-- C10: the in-memory history never exceeds `history_limit`; eviction is
FIFO — after any emit sequence the history is exactly the last
`history_limit` stamped event dicts, oldest first; and concretely, a bus
with limit 3 that emits `event.0` … `event.9` answers `get_history()` with
exactly the dicts of `event.7`, `event.8`, `event.9` in that order. -/
theorem claim10_history_fifo :
    (∀ (bus : EventBus) (es : List Event), bus.history.length ≤ bus.history_limit →
      (runEmits bus es).history.length ≤ bus.history_limit) ∧
    (∀ (bus : EventBus) (es : List Event), bus.history.length ≤ bus.history_limit →
      (runEmits bus es).history = takeLast bus.history_limit
        (bus.history ++ es.map (fun e => eventDict e bus.process_id))) ∧
    ((runEmits (EventBus.init 3 false "proc") ((List.range 10).map
        (fun i => ⟨"event." ++ toString i, 0⟩))).get_history none none
      = [⟨"event.7", 0, "proc"⟩, ⟨"event.8", 0, "proc"⟩, ⟨"event.9", 0, "proc"⟩]) := by
  refine ⟨?_, fun bus es h => runEmits_history es bus h, by decide⟩
  intro bus es h
  rw [runEmits_history es bus h]
  exact takeLast_length_le _ _

theorem claim10_witness :
    (runEmits (EventBus.init 3 false "proc") [evX, evX, evX, evX]).history.length ≤ 3 ∧
    (runEmits (EventBus.init 3 false "proc") [evX, evX, evX, evX]).history
      = takeLast 3 (([] : List EventDict)
          ++ [evX, evX, evX, evX].map (fun e => eventDict e "proc")) :=
  ⟨claim10_history_fifo.1 (EventBus.init 3 false "proc") [evX, evX, evX, evX] (by decide),
   claim10_history_fifo.2.1 (EventBus.init 3 false "proc") [evX, evX, evX, evX] (by decide)⟩


end Domubus
